import Mathlib

/-!
Verification of the gold-dashboard acquisition-and-caching core.

Shallow embedding of the numeric sanitizer, the TTL cache wrapper, the
snapshot history store, the historical-change aggregator helpers and the
per-asset fetch chains, together with theorems settling the specification
claims about them.  Decimal values are modelled as rationals, calendar
days and timestamps as integers.
-/

namespace GoldDashboard

/-! ## Numeric sanitizer (utils.sanitize_vn_number) -/

/-- Numeric value of an ASCII digit character. -/
def digitVal (c : Char) : ℕ := c.toNat - 48

/-- Value of a most-significant-first digit-character string in base 10. -/
def digitsVal (l : List Char) : ℕ := l.foldl (fun a c => 10 * a + digitVal c) 0

/-- Model of Python Decimal construction applied to a string made of digits,
dots and commas: it succeeds exactly when the string contains at most one
dot, no comma, and at least one digit, the dot acting as the decimal point.
Commas or repeated dots raise InvalidOperation, modelled as none. -/
def decimalOfChars (l : List Char) : Option ℚ :=
  if (l.filter (fun c => c == '.')).length = 0 then
    if l ≠ [] ∧ l.all Char.isDigit then some (digitsVal l) else none
  else if (l.filter (fun c => c == '.')).length = 1 then
    let intPart := l.takeWhile (fun c => c ≠ '.')
    let fracPart := (l.dropWhile (fun c => c ≠ '.')).tail
    if (intPart ++ fracPart) ≠ [] ∧ (intPart ++ fracPart).all Char.isDigit then
      some ((digitsVal intPart : ℚ) + (digitsVal fracPart : ℚ) / (10 : ℚ) ^ fracPart.length)
    else none
  else none

/-- Index of the last occurrence of a character, minus one if absent,
mirroring the Python str.rfind method. -/
def rfindAux (l : List Char) (c : Char) : Option ℕ :=
  match l with
  | [] => none
  | a :: rest =>
    match rfindAux rest c with
    | some i => some (i + 1)
    | none => if a = c then some 0 else none

/-- Python str.rfind: highest index of the character, or minus one. -/
def rfind (l : List Char) (c : Char) : ℤ :=
  match rfindAux l c with
  | some i => (i : ℤ)
  | none => -1

/-- Characters kept by the cleaning pass: digits, dots and commas. -/
def keepChar (c : Char) : Bool := c.isDigit || c == '.' || c == ','

/-- Rewriting every comma into a dot, the Python replace of comma by dot. -/
def commaToDot (c : Char) : Char := if c = ',' then '.' else c

/-- Model of utils.sanitize_vn_number.  The input is an Option String so
that the Python call sanitize(None) is representable; both None and the
empty string are falsy and yield none before any parsing. -/
def sanitize_vn_number (text : Option String) : Option ℚ :=
  match text with
  | none => none
  | some s =>
    if s = "" then none
    else
      let cleaned := s.data.filter keepChar
      if cleaned = [] then none
      else
        let dotCount := (cleaned.filter (fun c => c == '.')).length
        let commaCount := (cleaned.filter (fun c => c == ',')).length
        if 2 ≤ dotCount ∧ commaCount = 0 then
          decimalOfChars (cleaned.filter (fun c => c ≠ '.'))
        else if 2 ≤ commaCount ∧ dotCount = 0 then
          decimalOfChars (cleaned.filter (fun c => c ≠ ','))
        else if 1 ≤ dotCount ∧ 1 ≤ commaCount then
          if rfind cleaned '.' < rfind cleaned ',' then
            decimalOfChars ((cleaned.filter (fun c => c ≠ '.')).map commaToDot)
          else
            decimalOfChars (cleaned.filter (fun c => c ≠ ','))
        else if dotCount = 1 ∧ commaCount = 0 then
          if ((cleaned.dropWhile (fun c => c ≠ '.')).tail).length = 3 then
            decimalOfChars (cleaned.filter (fun c => c ≠ '.'))
          else
            decimalOfChars cleaned
        else if commaCount = 1 ∧ dotCount = 0 then
          if ((cleaned.dropWhile (fun c => c ≠ ',')).tail).length = 3 then
            decimalOfChars (cleaned.filter (fun c => c ≠ ','))
          else
            decimalOfChars (cleaned.map commaToDot)
        else
          decimalOfChars cleaned

/-! ## Spec-side model of the sanitizer disambiguation rules -/

/-- Parse of a plain digit string, spec rule 6. -/
def parseDigits (l : List Char) : Option ℚ :=
  if l ≠ [] ∧ l.all Char.isDigit then some (digitsVal l) else none

/-- Parse with a designated decimal-separator character: at most one
occurrence of the separator, every other character a digit. -/
def parseWithPoint (l : List Char) (sep : Char) : Option ℚ :=
  if l.count sep = 0 then parseDigits l
  else if l.count sep = 1 then
    let intPart := l.takeWhile (fun c => c ≠ sep)
    let fracPart := (l.dropWhile (fun c => c ≠ sep)).tail
    if (intPart ++ fracPart) ≠ [] ∧ (intPart ++ fracPart).all Char.isDigit then
      some ((digitsVal intPart : ℚ) + (digitsVal fracPart : ℚ) / (10 : ℚ) ^ fracPart.length)
    else none
  else none

/-- Separator occurring last in the string, found by scanning from the end. -/
def lastSep (l : List Char) : Option Char :=
  l.reverse.find? (fun c => c == '.' || c == ',')

/-- Spec model of the sanitizer: the six priority-ordered disambiguation
rules of the specification, written over the cleaned character string. -/
def sanitizeSpec (text : Option String) : Option ℚ :=
  match text with
  | none => none
  | some s =>
    let cleaned := s.data.filter keepChar
    if cleaned = [] then none
    else
      let dots := cleaned.count '.'
      let commas := cleaned.count ','
      if 2 ≤ dots ∧ commas = 0 then parseDigits (cleaned.filter (fun c => c ≠ '.'))
      else if 2 ≤ commas ∧ dots = 0 then parseDigits (cleaned.filter (fun c => c ≠ ','))
      else if 1 ≤ dots ∧ 1 ≤ commas then
        if lastSep cleaned = some ',' then
          parseWithPoint (cleaned.filter (fun c => c ≠ '.')) ','
        else
          parseWithPoint (cleaned.filter (fun c => c ≠ ',')) '.'
      else if dots = 1 ∧ commas = 0 then
        if ((cleaned.dropWhile (fun c => c ≠ '.')).tail).length = 3 then
          parseDigits (cleaned.filter (fun c => c ≠ '.'))
        else parseWithPoint cleaned '.'
      else if commas = 1 ∧ dots = 0 then
        if ((cleaned.dropWhile (fun c => c ≠ ',')).tail).length = 3 then
          parseDigits (cleaned.filter (fun c => c ≠ ','))
        else parseWithPoint cleaned ','
      else parseDigits cleaned

/-! ## Lemmas relating the code model to the spec model of the sanitizer -/

theorem length_filter_beq (l : List Char) (c : Char) :
    (l.filter (fun x => x == c)).length = l.count c := by
  rw [List.count_eq_countP, List.countP_eq_length_filter]

theorem decimalOfChars_eq_parseWithPoint (l : List Char) :
    decimalOfChars l = parseWithPoint l '.' := by
  unfold decimalOfChars parseWithPoint parseDigits
  rw [length_filter_beq]

theorem decimalOfChars_eq_parseDigits (l : List Char) (h : l.count '.' = 0) :
    decimalOfChars l = parseDigits l := by
  unfold decimalOfChars parseDigits
  rw [length_filter_beq, h]
  simp

theorem count_dot_filter_ne_dot (l : List Char) :
    (l.filter (fun c => c ≠ '.')).count '.' = 0 := by
  rw [List.count_eq_zero]
  intro h
  have := (List.mem_filter.mp h).2
  simp at this

theorem count_dot_filter_of_not_mem (l : List Char) (p : Char → Bool) (h : '.' ∉ l) :
    (l.filter p).count '.' = 0 := by
  rw [List.count_eq_zero]
  intro hm
  exact h (List.mem_filter.mp hm).1

theorem map_commaToDot_of_no_comma (l : List Char) (h : ',' ∉ l) :
    l.map commaToDot = l := by
  induction l with
  | nil => rfl
  | cons a l ih =>
    have ha : a ≠ ',' := fun e => h (e ▸ List.mem_cons_self a l)
    simp only [List.map_cons, commaToDot, if_neg ha]
    rw [ih (fun hm => h (List.mem_cons_of_mem a hm))]

theorem map_commaToDot_of_all_digit (l : List Char) (h : ∀ c ∈ l, c.isDigit) :
    l.map commaToDot = l := by
  refine map_commaToDot_of_no_comma l (fun hm => ?_)
  have := h ',' hm
  simp at this

theorem count_dot_map_commaToDot (l : List Char) (h : '.' ∉ l) :
    (l.map commaToDot).count '.' = l.count ',' := by
  induction l with
  | nil => rfl
  | cons a l ih =>
    have ha : a ≠ '.' := fun e => h (e ▸ List.mem_cons_self a l)
    have ih2 := ih (fun hm => h (List.mem_cons_of_mem a hm))
    by_cases hc : a = ','
    · subst hc
      simp only [List.map_cons, commaToDot, if_pos rfl, List.count_cons, ih2]
      simp
    · simp only [List.map_cons, commaToDot, if_neg hc, List.count_cons, ih2]
      have h1 : (a == '.') = false := by simp [ha]
      have h2 : (a == ',') = false := by simp [hc]
      rw [h1, h2]

theorem takeWhile_map_commaToDot (l : List Char) (h : '.' ∉ l) :
    (l.map commaToDot).takeWhile (fun c => c ≠ '.')
      = (l.takeWhile (fun c => c ≠ ',')).map commaToDot := by
  induction l with
  | nil => rfl
  | cons a l ih =>
    have ha : a ≠ '.' := fun e => h (e ▸ List.mem_cons_self a l)
    have ih2 := ih (fun hm => h (List.mem_cons_of_mem a hm))
    by_cases hc : a = ','
    · subst hc
      simp [commaToDot, List.takeWhile_cons]
    · simp [commaToDot, List.takeWhile_cons, ha, hc]
      simpa using ih2

theorem dropWhile_map_commaToDot (l : List Char) (h : '.' ∉ l) :
    (l.map commaToDot).dropWhile (fun c => c ≠ '.')
      = (l.dropWhile (fun c => c ≠ ',')).map commaToDot := by
  induction l with
  | nil => rfl
  | cons a l ih =>
    have ha : a ≠ '.' := fun e => h (e ▸ List.mem_cons_self a l)
    have ih2 := ih (fun hm => h (List.mem_cons_of_mem a hm))
    by_cases hc : a = ','
    · subst hc
      simp [commaToDot, List.dropWhile_cons]
    · simp [commaToDot, List.dropWhile_cons, ha, hc]
      simpa using ih2

theorem all_digit_map_commaToDot (l : List Char) (h : '.' ∉ l) :
    ((l.map commaToDot).all Char.isDigit) = (l.all Char.isDigit) := by
  induction l with
  | nil => rfl
  | cons a l ih =>
    have ha : a ≠ '.' := fun e => h (e ▸ List.mem_cons_self a l)
    have ih2 := ih (fun hm => h (List.mem_cons_of_mem a hm))
    by_cases hc : a = ','
    · subst hc
      have h1 : ('.'.isDigit) = false := by decide
      have h2 : (','.isDigit) = false := by decide
      simp [commaToDot, List.all_cons, ih2, h1, h2]
    · simp only [List.map_cons, commaToDot, if_neg hc, List.all_cons, ih2]

theorem tail_map_commaToDot (l : List Char) :
    (l.map commaToDot).tail = l.tail.map commaToDot := by
  cases l <;> rfl

theorem decimalOfChars_map_commaToDot (l : List Char) (h : '.' ∉ l) :
    decimalOfChars (l.map commaToDot) = parseWithPoint l ',' := by
  have hTW := takeWhile_map_commaToDot l h
  have hDW := dropWhile_map_commaToDot l h
  simp only [decimalOfChars, parseWithPoint]
  rw [length_filter_beq, count_dot_map_commaToDot l h]
  by_cases h0 : l.count ',' = 0
  · have hm : l.map commaToDot = l := map_commaToDot_of_no_comma l (List.count_eq_zero.mp h0)
    rw [hm]
    simp only [h0, if_pos]
    simp [parseDigits]
  · by_cases h1 : l.count ',' = 1
    · simp only [if_neg h0, if_pos h1]
      rw [hTW, hDW, tail_map_commaToDot, ← List.map_append]
      have hdot2 : '.' ∉ (l.takeWhile (fun c => c ≠ ',')
          ++ (l.dropWhile (fun c => c ≠ ',')).tail) := by
        intro hm
        rcases List.mem_append.mp hm with hm2 | hm2
        · exact h ((List.takeWhile_sublist _).subset hm2)
        · exact h ((List.dropWhile_sublist _).subset ((List.tail_sublist _).subset hm2))
      rw [all_digit_map_commaToDot _ hdot2]
      simp only [ne_eq, List.map_eq_nil_iff]
      split_ifs with hcond
      · have hall := hcond.2
        rw [List.all_append] at hall
        have hint : (l.takeWhile (fun c => c ≠ ',')).map commaToDot
            = l.takeWhile (fun c => c ≠ ',') :=
          map_commaToDot_of_all_digit _ (List.all_eq_true.mp (Bool.and_elim_left hall))
        have hfrac : ((l.dropWhile (fun c => c ≠ ',')).tail).map commaToDot
            = (l.dropWhile (fun c => c ≠ ',')).tail :=
          map_commaToDot_of_all_digit _ (List.all_eq_true.mp (Bool.and_elim_right hall))
        rw [hint, hfrac]
      · rfl
    · simp only [if_neg h0, if_neg h1]

/-! ## Last-occurrence bookkeeping for the dual-separator rule -/

theorem rfindAux_append_ne (l : List Char) (a c : Char) (hac : a ≠ c) :
    rfindAux (l ++ [a]) c = rfindAux l c := by
  induction l with
  | nil => simp [rfindAux, hac]
  | cons x l ih => simp only [List.cons_append, rfindAux, List.append_eq, ih]

theorem rfindAux_append_self (l : List Char) (c : Char) :
    rfindAux (l ++ [c]) c = some l.length := by
  induction l with
  | nil => simp [rfindAux]
  | cons x l ih => simp only [List.cons_append, rfindAux, List.append_eq, ih, List.length_cons]

theorem rfindAux_lt_length (l : List Char) (c : Char) (i : ℕ) (h : rfindAux l c = some i) :
    i < l.length := by
  induction l generalizing i with
  | nil => simp [rfindAux] at h
  | cons x l ih =>
    simp only [rfindAux] at h
    cases hr : rfindAux l c with
    | some j =>
      rw [hr] at h
      injection h with h
      subst h
      exact Nat.succ_lt_succ (ih j hr)
    | none =>
      rw [hr] at h
      split_ifs at h
      injection h with h
      subst h
      simp

theorem rfind_lt_length (l : List Char) (c : Char) : rfind l c < (l.length : ℤ) := by
  unfold rfind
  cases hr : rfindAux l c with
  | none =>
    have h0 : (0 : ℤ) ≤ (l.length : ℤ) := Int.natCast_nonneg _
    simp
    omega
  | some i =>
    have := rfindAux_lt_length l c i hr
    simp
    exact_mod_cast this

theorem rfind_append_self (l : List Char) (c : Char) :
    rfind (l ++ [c]) c = (l.length : ℤ) := by
  unfold rfind
  rw [rfindAux_append_self]

theorem rfind_append_ne (l : List Char) (a c : Char) (hac : a ≠ c) :
    rfind (l ++ [a]) c = rfind l c := by
  unfold rfind
  rw [rfindAux_append_ne l a c hac]

theorem lastSep_append (l : List Char) (a : Char) :
    lastSep (l ++ [a]) = if (a == '.' || a == ',') then some a else lastSep l := by
  unfold lastSep
  rw [List.reverse_append]
  cases hp : (a == '.' || a == ',') with
  | true => simp [List.find?_cons, hp]
  | false => simp [List.find?_cons, hp]

theorem rfind_lt_iff_lastSep (l : List Char) :
    '.' ∈ l → ',' ∈ l → ((rfind l '.' < rfind l ',') ↔ lastSep l = some ',') := by
  induction l using List.reverseRecOn with
  | nil =>
    intro hdot
    simp at hdot
  | append_singleton l a ih =>
    intro hdot hcomma
    by_cases hd : a = '.'
    · subst hd
      have h1 : rfind (l ++ ['.']) '.' = (l.length : ℤ) := rfind_append_self l '.'
      have h2 : rfind (l ++ ['.']) ',' = rfind l ',' := rfind_append_ne l '.' ',' (by decide)
      have h3 : rfind l ',' < (l.length : ℤ) := rfind_lt_length l ','
      have h4 : ¬ ((l.length : ℤ) < rfind l ',') := not_lt.mpr h3.le
      rw [h1, h2, lastSep_append]
      simp [h4]
    · by_cases hc : a = ','
      · subst hc
        have h1 : rfind (l ++ [',']) ',' = (l.length : ℤ) := rfind_append_self l ','
        have h2 : rfind (l ++ [',']) '.' = rfind l '.' := rfind_append_ne l ',' '.' (by decide)
        have h3 : rfind l '.' < (l.length : ℤ) := rfind_lt_length l '.'
        rw [h1, h2, lastSep_append]
        simp [h3]
      · have hd2 : '.' ∈ l := by
          rcases List.mem_append.mp hdot with hm | hm
          · exact hm
          · simp at hm
            exact absurd hm.symm hd
        have hc2 : ',' ∈ l := by
          rcases List.mem_append.mp hcomma with hm | hm
          · exact hm
          · simp at hm
            exact absurd hm.symm hc
        have hsep : (a == '.' || a == ',') = false := by simp [hd, hc]
        rw [rfind_append_ne l a '.' hd, rfind_append_ne l a ',' hc, lastSep_append, hsep]
        simp only [Bool.false_eq_true, if_false]
        exact ih hd2 hc2

/-- Full refinement: the code model of the sanitizer agrees with the
spec-side rule list on every input. -/
theorem sanitize_eq_sanitizeSpec (t : Option String) :
    sanitize_vn_number t = sanitizeSpec t := by
  cases t with
  | none => rfl
  | some s =>
    simp only [sanitize_vn_number, sanitizeSpec]
    by_cases hs : s = ""
    · subst hs
      rfl
    · rw [if_neg hs]
      set cleaned := s.data.filter keepChar with hcl
      by_cases h0 : cleaned = []
      · simp [h0]
      · rw [if_neg h0, if_neg h0, length_filter_beq, length_filter_beq]
        by_cases h1 : 2 ≤ cleaned.count '.' ∧ cleaned.count ',' = 0
        · rw [if_pos h1, if_pos h1]
          exact decimalOfChars_eq_parseDigits _ (count_dot_filter_ne_dot cleaned)
        · rw [if_neg h1, if_neg h1]
          by_cases h2 : 2 ≤ cleaned.count ',' ∧ cleaned.count '.' = 0
          · rw [if_pos h2, if_pos h2]
            have hd : '.' ∉ cleaned := List.count_eq_zero.mp h2.2
            exact decimalOfChars_eq_parseDigits _ (count_dot_filter_of_not_mem _ _ hd)
          · rw [if_neg h2, if_neg h2]
            by_cases h3 : 1 ≤ cleaned.count '.' ∧ 1 ≤ cleaned.count ','
            · rw [if_pos h3, if_pos h3]
              have hdm : '.' ∈ cleaned := List.count_pos_iff.mp h3.1
              have hcm : ',' ∈ cleaned := List.count_pos_iff.mp h3.2
              have hiff := rfind_lt_iff_lastSep cleaned hdm hcm
              by_cases h4 : rfind cleaned '.' < rfind cleaned ','
              · rw [if_pos h4, if_pos (hiff.mp h4)]
                refine decimalOfChars_map_commaToDot _ (fun hm => ?_)
                have := (List.mem_filter.mp hm).2
                simp at this
              · rw [if_neg h4, if_neg (fun hl => h4 (hiff.mpr hl))]
                exact decimalOfChars_eq_parseWithPoint _
            · rw [if_neg h3, if_neg h3]
              by_cases h5 : cleaned.count '.' = 1 ∧ cleaned.count ',' = 0
              · rw [if_pos h5, if_pos h5]
                by_cases h6 : ((cleaned.dropWhile (fun c => c ≠ '.')).tail).length = 3
                · rw [if_pos h6, if_pos h6]
                  exact decimalOfChars_eq_parseDigits _ (count_dot_filter_ne_dot cleaned)
                · rw [if_neg h6, if_neg h6]
                  exact decimalOfChars_eq_parseWithPoint cleaned
              · rw [if_neg h5, if_neg h5]
                by_cases h7 : cleaned.count ',' = 1 ∧ cleaned.count '.' = 0
                · rw [if_pos h7, if_pos h7]
                  have hd : '.' ∉ cleaned := List.count_eq_zero.mp h7.2
                  by_cases h8 : ((cleaned.dropWhile (fun c => c ≠ ',')).tail).length = 3
                  · rw [if_pos h8, if_pos h8]
                    exact decimalOfChars_eq_parseDigits _ (count_dot_filter_of_not_mem _ _ hd)
                  · rw [if_neg h8, if_neg h8]
                    exact decimalOfChars_map_commaToDot cleaned hd
                · rw [if_neg h7, if_neg h7]
                  have hd0 : cleaned.count '.' = 0 := by omega
                  exact decimalOfChars_eq_parseDigits _ hd0

theorem decimalOfChars_nonneg (l : List Char) (q : ℚ) (h : decimalOfChars l = some q) :
    0 ≤ q := by
  simp only [decimalOfChars] at h
  split_ifs at h
  all_goals first
    | (have h2 := Option.some_inj.mp h
       subst h2
       positivity)
    | simp at h

theorem sanitize_vn_number_nonneg_aux (t : Option String) (q : ℚ)
    (h : sanitize_vn_number t = some q) : 0 ≤ q := by
  cases t with
  | none => simp [sanitize_vn_number] at h
  | some s =>
    simp only [sanitize_vn_number] at h
    split_ifs at h
    all_goals first
      | exact decimalOfChars_nonneg _ _ h
      | simp at h

/-- C6: sanitize implements the priority-ordered disambiguation algorithm
on the string stripped to digits, dots and commas (two or more of one
separator with none of the other means thousands separators; one of each
makes the last-occurring separator the decimal point; a single separator
with a trailing three-digit part is a thousands separator, otherwise a
decimal point; no separators parse directly), and in particular the
sanitizer maps 80.000.000 to 80000000, 1.234,56 to 1234.56, 2,029.81 to
2029.81, and the empty string and None to absent without raising. -/
theorem sanitize_vn_number_matches_spec_rules :
    (∀ t, sanitize_vn_number t = sanitizeSpec t) ∧
    sanitize_vn_number (some "80.000.000") = some 80000000 ∧
    sanitize_vn_number (some "1.234,56") = some (123456 / 100) ∧
    sanitize_vn_number (some "2,029.81") = some (202981 / 100) ∧
    sanitize_vn_number (some "") = none ∧
    sanitize_vn_number none = none := by
  refine ⟨sanitize_eq_sanitizeSpec, ?_, ?_, ?_, rfl, rfl⟩
  · simp +decide only [sanitize_vn_number, keepChar, commaToDot, decimalOfChars, digitsVal,
      digitVal, rfind, rfindAux, List.filter, List.map, List.takeWhile, List.dropWhile,
      List.foldl, List.tail, List.length]
    all_goals simp
    all_goals norm_num
  · simp +decide only [sanitize_vn_number, keepChar, commaToDot, decimalOfChars, digitsVal,
      digitVal, rfind, rfindAux, List.filter, List.map, List.takeWhile, List.dropWhile,
      List.foldl, List.tail, List.length]
    all_goals simp
    all_goals norm_num
  · simp +decide only [sanitize_vn_number, keepChar, commaToDot, decimalOfChars, digitsVal,
      digitVal, rfind, rfindAux, List.filter, List.map, List.takeWhile, List.dropWhile,
      List.foldl, List.tail, List.length]
    all_goals simp
    all_goals norm_num

/-- C10: whenever the sanitizer returns a value the value is non-negative,
since every character other than digits, dots and commas (including a minus
sign) is stripped before parsing; in particular the text -0.54 parses to
its absolute value 0.54 rather than a negative number. -/
theorem sanitize_vn_number_result_nonneg :
    (∀ t q, sanitize_vn_number t = some q → 0 ≤ q) ∧
    sanitize_vn_number (some "-0.54") = some (27 / 50) := by
  refine ⟨sanitize_vn_number_nonneg_aux, ?_⟩
  simp +decide only [sanitize_vn_number, keepChar, commaToDot, decimalOfChars, digitsVal,
    digitVal, rfind, rfindAux, List.filter, List.map, List.takeWhile, List.dropWhile,
    List.foldl, List.tail, List.length]
  all_goals simp
  all_goals norm_num

/-- Witness for C10: the non-negativity statement applied at the concrete
input -0.54, whose parse is 27/50. -/
theorem sanitize_vn_number_result_nonneg_witness : (0 : ℚ) ≤ 27 / 50 :=
  sanitize_vn_number_result_nonneg.1 (some "-0.54") (27 / 50)
    sanitize_vn_number_result_nonneg.2

/-! ## Historical aggregator: percentage change (history_repo) -/

/-- Round a rational to the nearest integer with ties to even, the default
ROUND_HALF_EVEN rounding of Python Decimal quantize and of round(). -/
def roundHalfEven (q : ℚ) : ℤ :=
  if Int.fract q < 1 / 2 then ⌊q⌋
  else if 1 / 2 < Int.fract q then ⌊q⌋ + 1
  else if ⌊q⌋ % 2 = 0 then ⌊q⌋ else ⌊q⌋ + 1

/-- Model of Decimal.quantize to two decimal places. -/
def quantize2 (q : ℚ) : ℚ := (roundHalfEven (q * 100) : ℚ) / 100

/-- Model of history_repo _compute_change_percent: zero when the old value
is zero, otherwise the percentage change quantized to two decimals. -/
def _compute_change_percent (old_value new_value : ℚ) : ℚ :=
  if old_value = 0 then 0
  else quantize2 ((new_value - old_value) / old_value * 100)

theorem abs_roundHalfEven_sub (q : ℚ) : |(roundHalfEven q : ℚ) - q| ≤ 1 / 2 := by
  have h1 : (0:ℚ) ≤ Int.fract q := Int.fract_nonneg q
  have h2 : Int.fract q < 1 := Int.fract_lt_one q
  have h4 : (⌊q⌋ : ℚ) = q - Int.fract q := by
    unfold Int.fract
    ring
  unfold roundHalfEven
  rw [abs_le]
  split_ifs with ha hb hc
  · constructor <;> linarith [h4]
  · push_cast
    constructor <;> linarith [h4]
  · constructor <;> linarith [h4, not_lt.mp ha, not_lt.mp hb]
  · push_cast
    constructor <;> linarith [h4, not_lt.mp ha, not_lt.mp hb]

theorem quantize2_close (q : ℚ) : |quantize2 q - q| ≤ 1 / 200 := by
  unfold quantize2
  have h := abs_roundHalfEven_sub (q * 100)
  have h2 : (roundHalfEven (q * 100) : ℚ) / 100 - q
      = ((roundHalfEven (q * 100) : ℚ) - q * 100) / 100 := by ring
  rw [h2, abs_div]
  have h100 : |(100:ℚ)| = 100 := by norm_num
  rw [h100]
  linarith

/-- C7: the aggregator change computation equals the percentage change
((new - old) / old) * 100 rounded to 2 decimal places when the old value
is nonzero (the result is an integer number of hundredths within half a
hundredth of the exact percentage), and is exactly zero when the old value
is zero; in particular the change from 100 to 120 is 20.00, from 100 to 80
is -20.00, and from 0 to 100 is 0. -/
theorem compute_change_percent_spec :
    (∀ old_value new_value : ℚ, old_value ≠ 0 →
        _compute_change_percent old_value new_value
            = quantize2 ((new_value - old_value) / old_value * 100) ∧
        |_compute_change_percent old_value new_value
            - (new_value - old_value) / old_value * 100| ≤ 1 / 200 ∧
        ∃ k : ℤ, _compute_change_percent old_value new_value = (k : ℚ) / 100) ∧
    (∀ n : ℚ, _compute_change_percent 0 n = 0) ∧
    _compute_change_percent 100 120 = 20 ∧
    _compute_change_percent 100 80 = -20 ∧
    _compute_change_percent 0 100 = 0 := by
  refine ⟨?_, ?_, ?_, ?_, ?_⟩
  · intro old_value new_value h
    unfold _compute_change_percent
    rw [if_neg h]
    exact ⟨rfl, quantize2_close _, roundHalfEven _, rfl⟩
  · intro n
    simp [_compute_change_percent]
  · norm_num [_compute_change_percent, quantize2, roundHalfEven, Int.fract]
  · norm_num [_compute_change_percent, quantize2, roundHalfEven, Int.fract]
  · simp [_compute_change_percent]

/-- Witness for C7: the nonzero-old-value part applied at old 100, new 120. -/
theorem compute_change_percent_spec_witness :
    _compute_change_percent 100 120 = quantize2 ((120 - 100) / 100 * 100) :=
  (compute_change_percent_spec.1 100 120 (by norm_num)).1

/-! ## Snapshot history store (history_store.py) -/

/-- One stored snapshot: calendar day (as an integer day number), value,
and the original observation timestamp. -/
structure SnapshotEntry where
  date : ℤ
  value : ℚ
  ts : ℤ
deriving DecidableEq, Repr

/-- Ordering of entries by date, the sort key used by record_snapshot. -/
def byDate (a b : SnapshotEntry) : Prop := a.date ≤ b.date

instance : DecidableRel byDate := fun a b => inferInstanceAs (Decidable (a.date ≤ b.date))

instance : IsTotal SnapshotEntry byDate := ⟨fun a b => le_total a.date b.date⟩

instance : IsTrans SnapshotEntry byDate := ⟨fun _ _ _ h1 h2 => le_trans h1 h2⟩

/-- The update-or-append loop of record_snapshot: the first entry with the
same calendar day is overwritten in place, otherwise the new entry is
appended at the end. -/
def upsertEntry : List SnapshotEntry → ℤ → ℚ → ℤ → List SnapshotEntry
  | [], d, v, ts => [⟨d, v, ts⟩]
  | e :: rest, d, v, ts =>
    if e.date = d then ⟨e.date, v, ts⟩ :: rest
    else e :: upsertEntry rest d v ts

/-- Model of record_snapshot on one asset entry list: update or append,
then keep the list sorted ascending by date (a stable sort, as in Python). -/
def record_snapshot (entries : List SnapshotEntry) (d : ℤ) (v : ℚ) (ts : ℤ) :
    List SnapshotEntry :=
  List.insertionSort byDate (upsertEntry entries d v ts)

/-- Model of get_value_at on one asset entry list: scan for the entry with
minimal absolute distance to the target day (strict improvement only, so
the first minimum encountered wins), then apply the three-day tolerance. -/
def get_value_at (entries : List SnapshotEntry) (target : ℤ) : Option ℚ :=
  match entries with
  | [] => none
  | e0 :: rest =>
    let best := rest.foldl
      (fun b e => if |e.date - target| < |b.date - target| then e else b) e0
    if 3 < |best.date - target| then none else some best.value

/-- The on-disk store: a mapping from asset name to its entry list,
modelled as an association list. -/
abbrev HistoryStore := List (String × List SnapshotEntry)

/-- Reading one asset series from the store, empty when absent. -/
def storeEntries (h : HistoryStore) (asset : String) : List SnapshotEntry :=
  match h.lookup asset with
  | some es => es
  | none => []

/-- Python dict assignment of an entry list under an asset key. -/
def storeInsert (h : HistoryStore) (asset : String) (es : List SnapshotEntry) :
    HistoryStore :=
  if h.any (fun p => p.1 = asset) then
    h.map (fun p => if p.1 = asset then (asset, es) else p)
  else h ++ [(asset, es)]

/-- Model of _save_history: writing the new contents to disk, where an
IOError during the write is caught and swallowed, leaving the previous
on-disk contents in place. -/
def _save_history (disk : HistoryStore) (newData : HistoryStore) (writeOk : Bool) :
    HistoryStore :=
  if writeOk then newData else disk

/-- Model of record_snapshot at the store level.  The function re-reads the
whole store from disk (_load_history), updates the one asset series, and
persists best-effort; it returns the resulting on-disk store contents and
never raises. -/
def record_snapshot_disk (disk : HistoryStore) (writeOk : Bool) (asset : String)
    (d : ℤ) (v : ℚ) (ts : ℤ) : HistoryStore :=
  let history := disk
  let entries := storeEntries history asset
  _save_history disk (storeInsert history asset (record_snapshot entries d v ts)) writeOk

/-! ## Lemmas about the nearest-snapshot scan of get_value_at -/

theorem foldlBest_mem (rest : List SnapshotEntry) (t : ℤ) (b : SnapshotEntry) :
    rest.foldl (fun b e => if |e.date - t| < |b.date - t| then e else b) b = b
      ∨ rest.foldl (fun b e => if |e.date - t| < |b.date - t| then e else b) b ∈ rest := by
  induction rest generalizing b with
  | nil =>
    left
    rfl
  | cons x l ih =>
    simp only [List.foldl_cons]
    by_cases hx : |x.date - t| < |b.date - t|
    · rw [if_pos hx]
      rcases ih x with h | h
      · right
        rw [h]
        exact List.mem_cons_self x l
      · right
        exact List.mem_cons_of_mem x h
    · rw [if_neg hx]
      rcases ih b with h | h
      · left
        exact h
      · right
        exact List.mem_cons_of_mem x h

theorem foldlBest_min (rest : List SnapshotEntry) (t : ℤ) (b : SnapshotEntry) :
    |(rest.foldl (fun b e => if |e.date - t| < |b.date - t| then e else b) b).date - t|
        ≤ |b.date - t|
      ∧ ∀ e ∈ rest,
        |(rest.foldl (fun b e => if |e.date - t| < |b.date - t| then e else b) b).date - t|
          ≤ |e.date - t| := by
  induction rest generalizing b with
  | nil =>
    refine ⟨le_refl _, ?_⟩
    intro e he
    simp at he
  | cons x l ih =>
    simp only [List.foldl_cons]
    by_cases hx : |x.date - t| < |b.date - t|
    · rw [if_pos hx]
      obtain ⟨h1, h2⟩ := ih x
      refine ⟨le_trans h1 hx.le, ?_⟩
      intro e he
      rcases List.mem_cons.mp he with rfl | he2
      · exact h1
      · exact h2 e he2
    · rw [if_neg hx]
      obtain ⟨h1, h2⟩ := ih b
      refine ⟨h1, ?_⟩
      intro e he
      rcases List.mem_cons.mp he with rfl | he2
      · exact le_trans h1 (not_lt.mp hx)
      · exact h2 e he2

theorem foldlBest_of_min (rest : List SnapshotEntry) (t : ℤ) (b : SnapshotEntry)
    (h : ∀ e ∈ rest, |b.date - t| ≤ |e.date - t|) :
    rest.foldl (fun b e => if |e.date - t| < |b.date - t| then e else b) b = b := by
  induction rest with
  | nil => rfl
  | cons x l ih =>
    simp only [List.foldl_cons]
    have hx : ¬ |x.date - t| < |b.date - t| := not_lt.mpr (h x (List.mem_cons_self x l))
    rw [if_neg hx]
    exact ih (fun e he => h e (List.mem_cons_of_mem x he))

/-- C4: lookup on an empty series is absent; any returned value belongs to
a snapshot of minimal absolute distance to the target and that distance is
at most 3 days; a snapshot within 3 days (including exactly 3) guarantees
a value; when every snapshot is 4 or more days away the result is absent;
and on a tie for minimal distance the first-encountered (earliest, the
list being sorted) snapshot wins.  The concrete cases show the boundary:
distance exactly 3 returns the value, distance 4 returns absent. -/
theorem get_value_at_spec :
    (∀ t : ℤ, get_value_at [] t = none) ∧
    (∀ entries t q, get_value_at entries t = some q →
        ∃ e ∈ entries, e.value = q ∧ |e.date - t| ≤ 3 ∧
          ∀ f ∈ entries, |e.date - t| ≤ |f.date - t|) ∧
    (∀ entries t, (∃ e ∈ entries, |e.date - t| ≤ 3) → (get_value_at entries t).isSome) ∧
    (∀ entries t, (∀ e ∈ entries, 4 ≤ |e.date - t|) → get_value_at entries t = none) ∧
    (∀ e entries t, (∀ f ∈ entries, |e.date - t| ≤ |f.date - t|) →
        get_value_at (e :: entries) t
          = if |e.date - t| ≤ 3 then some e.value else none) ∧
    get_value_at [⟨0, 5, 0⟩] 3 = some 5 ∧
    get_value_at [⟨0, 5, 0⟩] 4 = none := by
  refine ⟨fun t => rfl, ?_, ?_, ?_, ?_, by decide, by decide⟩
  · intro entries t q h
    match entries with
    | [] => exact absurd h (by simp [get_value_at])
    | e0 :: rest =>
      simp only [get_value_at] at h
      split_ifs at h with h3
      have hv := Option.some_inj.mp h
      obtain ⟨h1, h2⟩ := foldlBest_min rest t e0
      refine ⟨_, ?_, hv, not_lt.mp h3, ?_⟩
      · rcases foldlBest_mem rest t e0 with hm | hm
        · rw [hm]
          exact List.mem_cons_self e0 rest
        · exact List.mem_cons_of_mem e0 hm
      · intro f hf
        rcases List.mem_cons.mp hf with rfl | hf2
        · exact h1
        · exact h2 f hf2
  · intro entries t h
    obtain ⟨e, he, hle⟩ := h
    match entries with
    | [] => exact absurd he (by simp)
    | e0 :: rest =>
      simp only [get_value_at]
      obtain ⟨h1, h2⟩ := foldlBest_min rest t e0
      have hbest : |(rest.foldl
          (fun b e => if |e.date - t| < |b.date - t| then e else b) e0).date - t| ≤ 3 := by
        rcases List.mem_cons.mp he with rfl | he2
        · exact le_trans h1 hle
        · exact le_trans (h2 e he2) hle
      rw [if_neg (not_lt.mpr hbest)]
      rfl
  · intro entries t h
    match entries with
    | [] => rfl
    | e0 :: rest =>
      simp only [get_value_at]
      have hbest : 3 < |(rest.foldl
          (fun b e => if |e.date - t| < |b.date - t| then e else b) e0).date - t| := by
        rcases foldlBest_mem rest t e0 with hm | hm
        · rw [hm]
          have := h e0 (List.mem_cons_self e0 rest)
          omega
        · have := h _ (List.mem_cons_of_mem e0 hm)
          omega
      rw [if_pos hbest]
  · intro e entries t h
    simp only [get_value_at]
    rw [foldlBest_of_min entries t e h]
    by_cases h3 : |e.date - t| ≤ 3
    · rw [if_neg (not_lt.mpr h3), if_pos h3]
    · rw [if_pos (not_le.mp h3), if_neg h3]

/-- Witness for C4: the all-snapshots-too-far part applied to a concrete
store whose only snapshot is 10 days away from the target. -/
theorem get_value_at_spec_witness : get_value_at [⟨0, 5, 0⟩] 10 = none :=
  get_value_at_spec.2.2.2.1 [⟨0, 5, 0⟩] 10 (by decide)

/-! ## Day-level deduplication invariant of record_snapshot -/

/-- At most one entry per calendar date. -/
def DatesNodup (l : List SnapshotEntry) : Prop := (l.map SnapshotEntry.date).Nodup

/-- Dates in ascending order. -/
def SortedByDate (l : List SnapshotEntry) : Prop := l.Sorted byDate

theorem upsertEntry_dates (l : List SnapshotEntry) (d : ℤ) (v : ℚ) (ts : ℤ) :
    (upsertEntry l d v ts).map SnapshotEntry.date
      = if d ∈ l.map SnapshotEntry.date then l.map SnapshotEntry.date
        else l.map SnapshotEntry.date ++ [d] := by
  induction l with
  | nil => simp [upsertEntry]
  | cons e l ih =>
    simp only [upsertEntry]
    by_cases he : e.date = d
    · rw [if_pos he]
      simp [he]
    · rw [if_neg he]
      have he2 : ¬ d = e.date := fun h => he h.symm
      simp only [List.map_cons, ih, List.mem_cons, he2, false_or]
      by_cases hd : d ∈ l.map SnapshotEntry.date
      · simp [hd]
      · simp [hd]

theorem upsertEntry_nodup (l : List SnapshotEntry) (d : ℤ) (v : ℚ) (ts : ℤ)
    (h : DatesNodup l) : DatesNodup (upsertEntry l d v ts) := by
  unfold DatesNodup at h ⊢
  rw [upsertEntry_dates]
  split_ifs with hd
  · exact h
  · simp [List.nodup_append, h, hd]

theorem upsertEntry_filter (l : List SnapshotEntry) (d : ℤ) (v : ℚ) (ts : ℤ)
    (h : DatesNodup l) :
    (upsertEntry l d v ts).filter (fun e => e.date = d) = [⟨d, v, ts⟩] := by
  induction l with
  | nil => simp [upsertEntry]
  | cons e l ih =>
    have hnd := (List.nodup_cons.mp h).1
    have hnl : DatesNodup l := (List.nodup_cons.mp h).2
    simp only [upsertEntry]
    by_cases he : e.date = d
    · rw [if_pos he]
      have hrest : l.filter (fun f => decide (f.date = d)) = [] := by
        rw [List.filter_eq_nil_iff]
        intro f hf
        simp only [decide_eq_true_eq]
        intro hfd
        exact hnd (he ▸ hfd ▸ List.mem_map_of_mem SnapshotEntry.date hf)
      simp [List.filter_cons, he, hrest]
    · rw [if_neg he]
      simp [List.filter_cons, he, ih hnl]

theorem record_snapshot_perm (l : List SnapshotEntry) (d : ℤ) (v : ℚ) (ts : ℤ) :
    (record_snapshot l d v ts).Perm (upsertEntry l d v ts) :=
  List.perm_insertionSort byDate _

theorem record_snapshot_nodup (l : List SnapshotEntry) (d : ℤ) (v : ℚ) (ts : ℤ)
    (h : DatesNodup l) : DatesNodup (record_snapshot l d v ts) := by
  unfold DatesNodup
  exact ((record_snapshot_perm l d v ts).map SnapshotEntry.date).nodup_iff.mpr
    (upsertEntry_nodup l d v ts h)

theorem record_snapshot_filter (l : List SnapshotEntry) (d : ℤ) (v : ℚ) (ts : ℤ)
    (h : DatesNodup l) :
    (record_snapshot l d v ts).filter (fun e => e.date = d) = [⟨d, v, ts⟩] := by
  have hp := (record_snapshot_perm l d v ts).filter (fun e => decide (e.date = d))
  rw [upsertEntry_filter l d v ts h] at hp
  exact List.perm_singleton.mp hp

/-- C5: record_snapshot always leaves the entry list sorted ascending by
date; it preserves the at-most-one-entry-per-date invariant; and recording
twice for the same calendar day leaves exactly one entry for that day,
holding the second value and timestamp. -/
theorem record_snapshot_invariant :
    (∀ l d v ts, SortedByDate (record_snapshot l d v ts)) ∧
    (∀ l d v ts, DatesNodup l → DatesNodup (record_snapshot l d v ts)) ∧
    (∀ l d v1 ts1 v2 ts2, DatesNodup l →
        (record_snapshot (record_snapshot l d v1 ts1) d v2 ts2).filter
            (fun e => e.date = d) = [⟨d, v2, ts2⟩]) := by
  refine ⟨?_, record_snapshot_nodup, ?_⟩
  · intro l d v ts
    exact List.sorted_insertionSort byDate _
  · intro l d v1 ts1 v2 ts2 h
    exact record_snapshot_filter _ d v2 ts2 (record_snapshot_nodup l d v1 ts1 h)

/-- Witness for C5: recording twice on day 0 into an empty store leaves
exactly the one entry with the second value. -/
theorem record_snapshot_invariant_witness :
    (record_snapshot (record_snapshot [] 0 1 0) 0 2 1).filter
        (fun e => e.date = 0) = [⟨0, 2, 1⟩] :=
  record_snapshot_invariant.2.2 [] 0 1 0 2 1 (by simp [DatesNodup])

/-! ## Persistence failure during record (history_store record_snapshot) -/

/-- C3 counterexample: recording into an empty store with a failing disk
write is swallowed, but the recorded value does NOT take effect for the
rest of the process.  The store is re-read from disk on every call, so a
subsequent lookup for that asset and day returns absent, not the newly
recorded value 5 that the claim promises. -/
theorem record_persist_failure_counterexample :
    get_value_at (storeEntries (record_snapshot_disk [] false "gold" 0 5 0) "gold") 0 = none
      ∧ get_value_at (storeEntries (record_snapshot_disk [] false "gold" 0 5 0) "gold") 0
          ≠ some 5 := by
  have h0 : get_value_at (storeEntries (record_snapshot_disk [] false "gold" 0 5 0) "gold") 0
      = none := rfl
  refine ⟨h0, ?_⟩
  rw [h0]
  simp

/-- C3 amended: a disk write failure during record is swallowed, so the
caller sees no error (record always returns a store), but the write
failure leaves the persisted store unchanged, so a subsequent lookup sees
only what was previously persisted; when the write succeeds, a subsequent
lookup for that asset and day returns the newly recorded value. -/
theorem record_persist_failure_behavior :
    (∀ (disk : HistoryStore) asset d v ts,
        record_snapshot_disk disk false asset d v ts = disk) ∧
    (∀ asset d v ts,
        get_value_at (storeEntries (record_snapshot_disk [] true asset d v ts) asset) d
          = some v) := by
  constructor
  · intro disk asset d v ts
    rfl
  · intro asset d v ts
    simp only [record_snapshot_disk, storeEntries, storeInsert, _save_history,
      record_snapshot, upsertEntry, List.lookup, List.any_nil, List.nil_append,
      if_true, if_false, Bool.false_eq_true]
    simp [List.insertionSort, get_value_at, List.orderedInsert]

/-! ## TTL cache wrapper (utils.cached) -/

/-- Error classes of the Python code: transient groups together
requests RequestException and ValueError, the classes the cache decorator
and the fetch chains catch; other stands for every other exception. -/
inductive PyError where
  | transient
  | other
deriving DecidableEq, Repr

/-- The single persisted cache entry for a key: written-at timestamp in
seconds and the stored payload, or none when the file is missing or
unreadable. -/
abbrev CacheEntry (A : Type) := Option (ℤ × A)

/-- Cache freshness window in seconds (config.CACHE_TTL_SECONDS). -/
def CACHE_TTL_SECONDS : ℤ := 600

/-- The miss path of the cached decorator: run the operation; on success
persist (best-effort) and return the result; on a transient failure
reread the entry ignoring the TTL and return it when present, otherwise
reraise; every other error propagates immediately. -/
def cachedRun {A : Type} (entry : CacheEntry A) (now : ℤ) (op : Except PyError A)
    (writeOk : Bool) : Except PyError A × CacheEntry A :=
  match op with
  | Except.ok v => (Except.ok v, if writeOk then some (now, v) else entry)
  | Except.error PyError.transient =>
    match entry with
    | some (ts, v) => (Except.ok v, some (ts, v))
    | none => (Except.error PyError.transient, none)
  | Except.error PyError.other => (Except.error PyError.other, entry)

/-- Model of one call through the cached decorator: a fresh persisted
entry (younger than the TTL) is returned without running the operation,
otherwise the operation runs with stale-on-transient-failure fallback.
The pair returned is (call result, resulting persisted entry). -/
def cachedCall {A : Type} (entry : CacheEntry A) (now : ℤ) (op : Except PyError A)
    (writeOk : Bool) : Except PyError A × CacheEntry A :=
  match entry with
  | some (ts, v) =>
    if now - ts < CACHE_TTL_SECONDS then (Except.ok v, some (ts, v))
    else cachedRun (some (ts, v)) now op writeOk
  | none => cachedRun none now op writeOk

/-- C2: a persisted entry younger than the 600-second TTL is returned
without invoking the operation (the result does not depend on the
operation at all); on a miss or an expired entry the operation runs and a
success is persisted and returned; a transient failure is answered from
the persisted entry ignoring the TTL when one exists and propagates only
when none does; any other error class propagates immediately without a
stale read even when a stale entry exists. -/
theorem cached_ttl_semantics :
    (∀ (A : Type) (ts : ℤ) (v : A) (now : ℤ) (op : Except PyError A) (writeOk : Bool),
        now - ts < CACHE_TTL_SECONDS →
          cachedCall (some (ts, v)) now op writeOk = (Except.ok v, some (ts, v))) ∧
    (∀ (A : Type) (ts : ℤ) (v : A) (now : ℤ) (v2 : A),
        ¬ now - ts < CACHE_TTL_SECONDS →
          cachedCall (some (ts, v)) now (Except.ok v2) true = (Except.ok v2, some (now, v2))) ∧
    (∀ (A : Type) (now : ℤ) (v2 : A),
        cachedCall (none : CacheEntry A) now (Except.ok v2) true
          = (Except.ok v2, some (now, v2))) ∧
    (∀ (A : Type) (ts : ℤ) (v : A) (now : ℤ) (writeOk : Bool),
        ¬ now - ts < CACHE_TTL_SECONDS →
          cachedCall (some (ts, v)) now (Except.error PyError.transient) writeOk
            = (Except.ok v, some (ts, v))) ∧
    (∀ (A : Type) (now : ℤ) (writeOk : Bool),
        cachedCall (none : CacheEntry A) now (Except.error PyError.transient) writeOk
          = (Except.error PyError.transient, none)) ∧
    (∀ (A : Type) (ts : ℤ) (v : A) (now : ℤ) (writeOk : Bool),
        ¬ now - ts < CACHE_TTL_SECONDS →
          cachedCall (some (ts, v)) now (Except.error PyError.other) writeOk
            = (Except.error PyError.other, some (ts, v))) ∧
    (∀ (A : Type) (now : ℤ) (writeOk : Bool),
        cachedCall (none : CacheEntry A) now (Except.error PyError.other) writeOk
          = (Except.error PyError.other, none)) := by
  refine ⟨?_, ?_, ?_, ?_, ?_, ?_, ?_⟩
  · intro A ts v now op writeOk h
    simp only [cachedCall, if_pos h]
  · intro A ts v now v2 h
    simp only [cachedCall, if_neg h, cachedRun, if_true]
  · intro A now v2
    simp only [cachedCall, cachedRun, if_true]
  · intro A ts v now writeOk h
    simp only [cachedCall, if_neg h, cachedRun]
  · intro A now writeOk
    simp only [cachedCall, cachedRun]
  · intro A ts v now writeOk h
    simp only [cachedCall, if_neg h, cachedRun]
  · intro A now writeOk
    simp only [cachedCall, cachedRun]

/-- Witness for C2: the fresh-hit part applied at a concrete entry and an
operation that would fail, showing the operation is not consulted. -/
theorem cached_ttl_semantics_witness :
    cachedCall (some ((0 : ℤ), (7 : ℤ))) 10 (Except.error PyError.other) true
      = (Except.ok 7, some (0, 7)) :=
  cached_ttl_semantics.1 ℤ 0 7 10 (Except.error PyError.other) true (by decide)

/-! ## Nearest-date resolution against a bulk series (history_repo) -/

/-- Model of _find_chogia_rate: for offsets 0..3 and signs (0, 1, -1) in
that order, probe the series at target plus sign times offset and return
the first hit.  The series dict is modelled as a partial map from day to
value. -/
def _find_chogia_rate (rates : ℤ → Option ℚ) (target : ℤ) : Option ℚ :=
  ((List.range 4).flatMap
      (fun off => [0, 1, -1].map (fun sign => target + sign * (off : ℤ)))).findSome? rates

/-- Model of _find_closest_price: for offsets 0..3, probe target plus
offset then target minus offset, returning the first hit. -/
def _find_closest_price (day_prices : ℤ → Option ℚ) (target_day : ℤ) : Option ℚ :=
  ((List.range 4).flatMap
      (fun off => [target_day + (off : ℤ), target_day - (off : ℤ)])).findSome? day_prices

/-- The candidate order stated by the spec: exact date first, then at each
distance 1, 2, 3 the later date before the earlier one. -/
def nearestScanOrder (t : ℤ) : List ℤ :=
  [t, t + 1, t - 1, t + 2, t - 2, t + 3, t - 3]

/-- C9: both nearest-date helpers probe the exact target date first, then
offsets 1, 2, 3 in increasing distance, checking the later date before the
earlier one at each distance, and return the first date present in the
series; when no date within three days is present the result is absent. -/
theorem find_rate_scan_order :
    (∀ (rates : ℤ → Option ℚ) (t : ℤ),
        _find_chogia_rate rates t = (nearestScanOrder t).findSome? rates) ∧
    (∀ (prices : ℤ → Option ℚ) (t : ℤ),
        _find_closest_price prices t = (nearestScanOrder t).findSome? prices) ∧
    (∀ (rates : ℤ → Option ℚ) (t : ℤ) (v : ℚ), rates t = some v →
        _find_chogia_rate rates t = some v ∧ _find_closest_price rates t = some v) ∧
    (∀ (rates : ℤ → Option ℚ) (t : ℤ),
        (∀ k : ℤ, |k - t| ≤ 3 → rates k = none) →
        _find_chogia_rate rates t = none ∧ _find_closest_price rates t = none) := by
  have hchogia : ∀ (rates : ℤ → Option ℚ) (t : ℤ),
      _find_chogia_rate rates t = (nearestScanOrder t).findSome? rates := by
    intro rates t
    show ([t + 0 * 0, t + 1 * 0, t + -1 * 0, t + 0 * 1, t + 1 * 1, t + -1 * 1,
        t + 0 * 2, t + 1 * 2, t + -1 * 2, t + 0 * 3, t + 1 * 3,
        t + -1 * 3] : List ℤ).findSome? rates = _
    norm_num [nearestScanOrder]
    cases h : rates t with
    | some v => simp [List.findSome?, h]
    | none => simp [List.findSome?, h, sub_eq_add_neg]
  have hclosest : ∀ (prices : ℤ → Option ℚ) (t : ℤ),
      _find_closest_price prices t = (nearestScanOrder t).findSome? prices := by
    intro prices t
    show ([t + 0, t - 0, t + 1, t - 1, t + 2, t - 2, t + 3, t - 3] : List ℤ).findSome? prices
      = _
    norm_num [nearestScanOrder]
    cases h : prices t with
    | some v => simp [List.findSome?, h]
    | none => simp [List.findSome?, h]
  refine ⟨hchogia, hclosest, ?_, ?_⟩
  · intro rates t v h
    rw [hchogia, hclosest]
    simp [nearestScanOrder, List.findSome?, h]
  · intro rates t h
    have h0 := h t (by rw [abs_le]; omega)
    have h1 := h (t + 1) (by rw [abs_le]; omega)
    have h2 := h (t - 1) (by rw [abs_le]; omega)
    have h3 := h (t + 2) (by rw [abs_le]; omega)
    have h4 := h (t - 2) (by rw [abs_le]; omega)
    have h5 := h (t + 3) (by rw [abs_le]; omega)
    have h6 := h (t - 3) (by rw [abs_le]; omega)
    rw [hchogia, hclosest]
    simp [nearestScanOrder, List.findSome?, h0, h1, h2, h3, h4, h5, h6]

/-- Witness for C9: the exact-match part applied to a concrete one-point
series at its own date. -/
theorem find_rate_scan_order_witness :
    _find_chogia_rate (fun k => if k = 5 then some 42 else none) 5 = some 42 ∧
    _find_closest_price (fun k => if k = 5 then some 42 else none) 5 = some 42 :=
  find_rate_scan_order.2.2.1 (fun k => if k = 5 then some 42 else none) 5 42 (by norm_num)

/-! ## Per-asset fetch chains (repositories/) -/

/-- Gold observation, modelled from the spec data model: values, unit,
provenance label and observation timestamp. -/
structure GoldPrice where
  buy_price : ℚ
  sell_price : ℚ
  unit : String
  source : String
  ts : ℤ
deriving DecidableEq, Repr

/-- Bitcoin observation. -/
structure BitcoinPrice where
  btc_to_vnd : ℚ
  source : String
  ts : ℤ
deriving DecidableEq, Repr

/-- VN30 index observation. -/
structure Vn30Index where
  index_value : ℚ
  change_percent : Option ℚ
  source : String
  ts : ℤ
deriving DecidableEq, Repr

/-- The hard-coded terminal fallback of GoldRepository.fetch. -/
def goldFallback (now : ℤ) : GoldPrice :=
  ⟨87500000, 88500000, "VND/tael", "Fallback (Scraping Failed)", now⟩

/-- Model of GoldRepository.fetch: try 24h, SJC, then Mi Hong, each with
its network and parse errors (the transient class) caught; when all three
fail the hard-coded fallback observation is returned.  An error outside
the caught classes propagates. -/
def GoldRepository.fetch (now : ℤ) (s24h sjc mihong : Except PyError GoldPrice) :
    Except PyError GoldPrice :=
  match s24h with
  | Except.ok v => Except.ok v
  | Except.error PyError.other => Except.error PyError.other
  | Except.error PyError.transient =>
    match sjc with
    | Except.ok v => Except.ok v
    | Except.error PyError.other => Except.error PyError.other
    | Except.error PyError.transient =>
      match mihong with
      | Except.ok v => Except.ok v
      | Except.error PyError.other => Except.error PyError.other
      | Except.error PyError.transient => Except.ok (goldFallback now)

/-- Model of CryptoRepository.fetch: the CoinMarketCap strategy may fail
transiently or find no plausible rate, in which case control falls to the
CoinGecko strategy, whose result (success or error) is returned as is. -/
def CryptoRepository.fetch (now : ℤ) (cmc : Except PyError (Option ℚ))
    (coingecko : Except PyError BitcoinPrice) : Except PyError BitcoinPrice :=
  match cmc with
  | Except.ok (some rate) => Except.ok ⟨rate, "CoinMarketCap", now⟩
  | Except.ok none => coingecko
  | Except.error PyError.transient => coingecko
  | Except.error PyError.other => Except.error PyError.other

/-- Model of StockRepository.fetch: a single Vietstock strategy; a network
error propagates, a page with no plausible index value raises ValueError
(transient), and a parsed value is returned with the Vietstock label. -/
def StockRepository.fetch (now : ℤ) (page : Except PyError (Option ℚ × Option ℚ)) :
    Except PyError Vn30Index :=
  match page with
  | Except.ok (some v, chg) => Except.ok ⟨v, chg, "Vietstock", now⟩
  | Except.ok (none, _) => Except.error PyError.transient
  | Except.error e => Except.error e

/-- C1 counterexample: the claim says every asset adapter chain returns a
terminal fallback observation when all strategies fail, but the stock
chain and the crypto chain both propagate the error of their last
strategy instead of returning any observation. -/
theorem fetch_chain_counterexample :
    StockRepository.fetch 0 (Except.error PyError.transient)
        = Except.error PyError.transient ∧
    CryptoRepository.fetch 0 (Except.error PyError.transient)
        (Except.error PyError.transient) = Except.error PyError.transient :=
  ⟨rfl, rfl⟩

/-- C1 amended: only the gold chain ends in the terminal constant fallback
observation labeled Fallback (Scraping Failed) when every strategy fails
with a caught network or parse error; the crypto chain instead ends in the
CoinGecko strategy, whose outcome (including failure) is passed through to
the caller, and the stock chain consists of a single strategy whose
failure propagates; an error outside the caught classes propagates from
the gold chain immediately. -/
theorem fetch_chain_behavior :
    (∀ now : ℤ, GoldRepository.fetch now (Except.error PyError.transient)
        (Except.error PyError.transient) (Except.error PyError.transient)
        = Except.ok (goldFallback now)) ∧
    (∀ now : ℤ, (goldFallback now).source = "Fallback (Scraping Failed)") ∧
    (∀ (now : ℤ) (s2 s3 : Except PyError GoldPrice),
        GoldRepository.fetch now (Except.error PyError.other) s2 s3
          = Except.error PyError.other) ∧
    (∀ (now : ℤ) (r : Except PyError BitcoinPrice),
        CryptoRepository.fetch now (Except.error PyError.transient) r = r) ∧
    (∀ (now : ℤ) (r : Except PyError BitcoinPrice),
        CryptoRepository.fetch now (Except.ok none) r = r) ∧
    (∀ (now : ℤ) (e : PyError),
        StockRepository.fetch now (Except.error e) = Except.error e) :=
  ⟨fun _ => rfl, fun _ => rfl, fun _ _ _ => rfl, fun _ _ => rfl, fun _ _ => rfl,
    fun _ _ => rfl⟩

/-! ## Cache serialization: exact decimal strings (utils serialization) -/

/-- Python Decimal in its internal form: sign, coefficient digit tuple
(most significant first) and exponent, so the value is
coefficient times ten to the exponent. -/
structure PyDecimal where
  neg : Bool
  digits : List ℕ
  exp : ℤ
deriving DecidableEq, Repr

/-- Canonical finite Decimal: a nonempty digit tuple of base-10 digits
with no leading zero except for the single digit zero itself. -/
def PyDecimal.Valid (d : PyDecimal) : Prop :=
  d.digits ≠ [] ∧ (∀ x ∈ d.digits, x < 10) ∧ (d.digits.head? = some 0 → d.digits = [0])

instance (d : PyDecimal) : Decidable d.Valid := by
  unfold PyDecimal.Valid
  infer_instance

/-- Character of a single digit. -/
def digitChar (n : ℕ) : Char := Char.ofNat (48 + n)

/-- Characters of a digit tuple. -/
def digitChars (l : List ℕ) : List Char := l.map digitChar

/-- Digit tuple of a natural number, most significant first. -/
def natDigits (n : ℕ) : List ℕ := (Nat.digits 10 n).reverse

/-- Decimal string of a natural number (empty for zero, as in the digit
expansion; only used on nonzero exponents). -/
def natChars (n : ℕ) : List Char := digitChars (natDigits n)

/-- The %+d formatting of an integer: an explicit sign then the digits. -/
def intPlusChars (k : ℤ) : List Char :=
  (if k < 0 then ['-'] else ['+']) ++ natChars k.natAbs

theorem digitVal_digitChar (n : ℕ) (h : n < 10) : digitVal (digitChar n) = n := by
  interval_cases n <;> decide

theorem isDigit_digitChar (n : ℕ) (h : n < 10) : (digitChar n).isDigit = true := by
  interval_cases n <;> decide

theorem digitChar_ne (n : ℕ) (h : n < 10) :
    digitChar n ≠ '-' ∧ digitChar n ≠ '+' ∧ digitChar n ≠ '.' ∧ digitChar n ≠ 'E' := by
  interval_cases n <;> refine ⟨by decide, by decide, by decide, by decide⟩

theorem digitChars_all_digit (l : List ℕ) (h : ∀ x ∈ l, x < 10) :
    ∀ c ∈ digitChars l, c.isDigit = true := by
  intro c hc
  obtain ⟨x, hx, rfl⟩ := List.mem_map.mp hc
  exact isDigit_digitChar x (h x hx)

theorem digitChars_map_digitVal (l : List ℕ) (h : ∀ x ∈ l, x < 10) :
    (digitChars l).map digitVal = l := by
  unfold digitChars
  rw [List.map_map]
  have : ∀ x ∈ l, (digitVal ∘ digitChar) x = id x := by
    intro x hx
    exact digitVal_digitChar x (h x hx)
  rw [List.map_congr_left this, List.map_id]

theorem digitsVal_digitChars (l : List ℕ) (h : ∀ x ∈ l, x < 10) :
    digitsVal (digitChars l) = Nat.ofDigits 10 l.reverse := by
  induction l using List.reverseRecOn with
  | nil => rfl
  | append_singleton l x ih =>
    have hx : x < 10 := h x (by simp)
    have hl : ∀ y ∈ l, y < 10 := fun y hy => h y (by simp [hy])
    unfold digitChars digitsVal at ih ⊢
    rw [List.map_append, List.foldl_append]
    simp only [List.map_cons, List.map_nil, List.foldl_cons, List.foldl_nil]
    rw [List.reverse_append]
    simp only [List.reverse_cons, List.reverse_nil, List.nil_append, List.singleton_append]
    rw [Nat.ofDigits_cons]
    rw [ih hl, digitVal_digitChar x hx]
    ring

theorem natDigits_lt (n : ℕ) : ∀ x ∈ natDigits n, x < 10 := by
  intro x hx
  unfold natDigits at hx
  rw [List.mem_reverse] at hx
  exact Nat.digits_lt_base (by norm_num) hx

theorem digitsVal_natChars (n : ℕ) : digitsVal (natChars n) = n := by
  unfold natChars
  rw [digitsVal_digitChars _ (natDigits_lt n)]
  unfold natDigits
  rw [List.reverse_reverse, Nat.ofDigits_digits]

theorem natChars_ne_nil (n : ℕ) (h : n ≠ 0) : natChars n ≠ [] := by
  unfold natChars digitChars natDigits
  simp [Nat.digits_ne_nil_iff_ne_zero.mpr h]

theorem natChars_all_digit (n : ℕ) : ∀ c ∈ natChars n, c.isDigit = true :=
  digitChars_all_digit _ (natDigits_lt n)

/-- The __str__ algorithm for a finite Decimal (CPython to-sci-string):
no exponent when the exponent is nonpositive and the adjusted exponent is
above minus six; otherwise scientific notation with one leading digit. -/
def decStr (d : PyDecimal) : List Char :=
  let n : ℤ := d.digits.length
  let leftdigits : ℤ := d.exp + n
  let dotplace : ℤ := if d.exp ≤ 0 ∧ -6 < leftdigits then leftdigits else 1
  let body :=
    if dotplace ≤ 0 then
      '0' :: '.' :: (List.replicate (-dotplace).toNat '0' ++ digitChars d.digits)
    else if n ≤ dotplace then
      digitChars d.digits ++ List.replicate (dotplace - n).toNat '0'
    else
      digitChars (d.digits.take dotplace.toNat)
        ++ '.' :: digitChars (d.digits.drop dotplace.toNat)
  let exppart :=
    if leftdigits = dotplace then [] else 'E' :: intPlusChars (leftdigits - dotplace)
  (if d.neg then ['-'] else []) ++ body ++ exppart

/-- Optional leading sign of a numeric string. -/
def parseSign (l : List Char) : Bool × List Char :=
  match l with
  | [] => (false, [])
  | c :: rest =>
    if c = '-' then (true, rest)
    else if c = '+' then (false, rest)
    else (false, c :: rest)

/-- Leading zeros of the concatenated digit string are dropped by the
Decimal constructor (via int conversion), leaving a single zero for an
all-zero coefficient. -/
def stripLZ (l : List ℕ) : List ℕ :=
  match l.dropWhile (fun d => d = 0) with
  | [] => [0]
  | r => r

/-- Building the parsed Decimal from sign, coefficient characters and
exponent. -/
def mkDec (neg : Bool) (coeff : List Char) (e : ℤ) : PyDecimal :=
  ⟨neg, stripLZ (coeff.map digitVal), e⟩

/-- The exponent part of a numeric string: sign and digits, nothing after. -/
def parseExpDigits (neg : Bool) (coeff : List Char) (fracLen : ℕ) (r : List Char) :
    Option PyDecimal :=
  let s := parseSign r
  let eD := s.2.takeWhile Char.isDigit
  let r2 := s.2.dropWhile Char.isDigit
  if eD = [] ∨ r2 ≠ [] then none
  else
    some (mkDec neg coeff
      ((if s.1 then -(digitsVal eD : ℤ) else (digitsVal eD : ℤ)) - fracLen))

/-- After the mantissa: end of input, or an exponent marker. -/
def parseExpPart (neg : Bool) (coeff : List Char) (fracLen : ℕ) (rest : List Char) :
    Option PyDecimal :=
  match rest with
  | [] => some (mkDec neg coeff (-(fracLen : ℤ)))
  | c :: r => if c = 'E' ∨ c = 'e' then parseExpDigits neg coeff fracLen r else none

/-- The Decimal constructor on a numeric string: optional sign, integer
digits, optional dot and fraction digits, optional exponent; the
coefficient is the concatenation of integer and fraction digits with
leading zeros stripped, the exponent is lowered by the fraction length. -/
def decParse (l : List Char) : Option PyDecimal :=
  let s := parseSign l
  let intD := s.2.takeWhile Char.isDigit
  let rest1 := s.2.dropWhile Char.isDigit
  match rest1 with
  | [] => if intD = [] then none else parseExpPart s.1 intD 0 []
  | c :: l3 =>
    if c = '.' then
      let fracD := l3.takeWhile Char.isDigit
      let rest2 := l3.dropWhile Char.isDigit
      if intD = [] ∧ fracD = [] then none
      else parseExpPart s.1 (intD ++ fracD) fracD.length rest2
    else if intD = [] then none else parseExpPart s.1 intD 0 (c :: l3)

/-! ## Round-trip lemmas for decimal strings -/

theorem span_digits (ds rest : List Char) (hds : ∀ c ∈ ds, c.isDigit = true)
    (hrest : ∀ c, rest.head? = some c → c.isDigit = false) :
    (ds ++ rest).takeWhile Char.isDigit = ds
      ∧ (ds ++ rest).dropWhile Char.isDigit = rest := by
  induction ds with
  | nil =>
    simp only [List.nil_append]
    cases rest with
    | nil => exact ⟨rfl, rfl⟩
    | cons r rs =>
      have hr : r.isDigit = false := hrest r rfl
      rw [List.takeWhile_cons, List.dropWhile_cons, hr]
      exact ⟨rfl, rfl⟩
  | cons c cs ih =>
    have hc : c.isDigit = true := hds c (List.mem_cons_self c cs)
    have ihh := ih (fun x hx => hds x (List.mem_cons_of_mem c hx))
    simp only [List.cons_append, List.takeWhile_cons, List.dropWhile_cons, hc]
    refine ⟨?_, ?_⟩
    · rw [ihh.1]
      simp
    · rw [ihh.2]
      simp

theorem stripLZ_replicate (k : ℕ) (l : List ℕ) :
    stripLZ (List.replicate k 0 ++ l) = stripLZ l := by
  unfold stripLZ
  have : (List.replicate k 0 ++ l).dropWhile (fun d => d = 0)
      = l.dropWhile (fun d => d = 0) := by
    induction k with
    | zero => simp
    | succ m ih =>
      rw [List.replicate_succ, List.cons_append, List.dropWhile_cons]
      simpa using ih
  rw [this]

theorem stripLZ_valid (l : List ℕ) (hne : l ≠ [])
    (hlead : l.head? = some 0 → l = [0]) : stripLZ l = l := by
  match l, hne with
  | a :: rest, _ =>
    by_cases ha : a = 0
    · have h0 : a :: rest = [0] := hlead (by rw [ha]; rfl)
      rw [h0]
      rfl
    · unfold stripLZ
      rw [List.dropWhile_cons]
      simp [ha]

theorem parseSign_neg_cons (l : List Char) : parseSign ('-' :: l) = (true, l) := by
  simp [parseSign]

theorem parseSign_plus_cons (l : List Char) : parseSign ('+' :: l) = (false, l) := by
  simp [parseSign]

theorem parseSign_digit_head (c : Char) (l : List Char) (hc : c.isDigit = true) :
    parseSign (c :: l) = (false, c :: l) := by
  have h1 : ¬ c = '-' := fun e => by
    rw [e] at hc
    exact absurd hc (by decide)
  have h2 : ¬ c = '+' := fun e => by
    rw [e] at hc
    exact absurd hc (by decide)
  simp [parseSign, h1, h2]

theorem parseSign_prefix (neg : Bool) (c : Char) (l : List Char) (hc : c.isDigit = true) :
    parseSign ((if neg then ['-'] else []) ++ (c :: l)) = (neg, c :: l) := by
  cases neg
  · rw [if_neg (by simp), List.nil_append]
    exact parseSign_digit_head c l hc
  · rw [if_pos rfl, List.singleton_append]
    exact parseSign_neg_cons _

theorem mkDec_eq (neg : Bool) (pre : ℕ) (D : List ℕ) (e : ℤ)
    (hlt : ∀ x ∈ D, x < 10) (hne : D ≠ []) (hlead : D.head? = some 0 → D = [0]) :
    mkDec neg (List.replicate pre '0' ++ digitChars D) e = ⟨neg, D, e⟩ := by
  unfold mkDec
  rw [List.map_append, digitChars_map_digitVal D hlt]
  have hrep : (List.replicate pre '0').map digitVal = List.replicate pre 0 := by
    rw [List.map_replicate]
    rfl
  rw [hrep, stripLZ_replicate, stripLZ_valid D hne hlead]

theorem mkDec_digitChars (neg : Bool) (D : List ℕ) (e : ℤ)
    (hlt : ∀ x ∈ D, x < 10) (hne : D ≠ []) (hlead : D.head? = some 0 → D = [0]) :
    mkDec neg (digitChars D) e = ⟨neg, D, e⟩ := by
  have h := mkDec_eq neg 0 D e hlt hne hlead
  rw [List.replicate_zero, List.nil_append] at h
  exact h

theorem parseExpDigits_intPlusChars (neg : Bool) (coeff : List Char) (fracLen : ℕ)
    (k : ℤ) (hk : k ≠ 0) :
    parseExpDigits neg coeff fracLen (intPlusChars k)
      = some (mkDec neg coeff (k - fracLen)) := by
  have hAbs : k.natAbs ≠ 0 := Int.natAbs_ne_zero.mpr hk
  have hne := natChars_ne_nil k.natAbs hAbs
  have hdig := natChars_all_digit k.natAbs
  have hspan := span_digits (natChars k.natAbs) [] hdig (by simp)
  rw [List.append_nil] at hspan
  unfold intPlusChars
  by_cases hneg : k < 0
  · have hval : -((k.natAbs : ℤ)) = k := by omega
    rw [if_pos hneg, List.singleton_append]
    simp only [parseExpDigits, parseSign_neg_cons, hspan.1, hspan.2]
    rw [if_neg (by simp [hne])]
    show some (mkDec neg coeff (-((digitsVal (natChars k.natAbs) : ℤ)) - fracLen)) = _
    rw [digitsVal_natChars, hval]
  · rw [if_neg hneg, List.singleton_append]
    simp only [parseExpDigits, parseSign_plus_cons, hspan.1, hspan.2]
    rw [if_neg (by simp [hne])]
    show some (mkDec neg coeff (((digitsVal (natChars k.natAbs) : ℤ)) - fracLen)) = _
    have hval : ((k.natAbs : ℤ)) = k := by omega
    rw [digitsVal_natChars, hval]

set_option maxHeartbeats 1000000

theorem decParse_decStr (d : PyDecimal) (h : d.Valid) : decParse (decStr d) = some d := by
  obtain ⟨neg, D, e⟩ := d
  obtain ⟨hne, hlt, hlead⟩ := h
  simp only at hne hlt hlead
  have hdigAll : ∀ c ∈ digitChars D, c.isDigit = true := digitChars_all_digit D hlt
  have hnpos : 0 < D.length := List.length_pos.mpr hne
  by_cases hsci : e ≤ 0 ∧ -6 < e + (D.length : ℤ)
  · by_cases hdp0 : e + (D.length : ℤ) ≤ 0
    · -- N1: 0.00ddd form
      have hstr : decStr ⟨neg, D, e⟩
          = (if neg then ['-'] else [])
            ++ ('0' :: '.' :: (List.replicate (-(e + (D.length : ℤ))).toNat '0'
                ++ digitChars D)) := by
        simp only [decStr]
        rw [if_pos hsci, if_pos hdp0, if_pos rfl, List.append_nil]
      have hzeros : ∀ c ∈ List.replicate (-(e + (D.length : ℤ))).toNat '0',
          c.isDigit = true := by
        intro c hc
        rw [List.eq_of_mem_replicate hc]
        decide
      have hfrac := span_digits
        (List.replicate (-(e + (D.length : ℤ))).toNat '0' ++ digitChars D) []
        (by
          intro c hc
          rcases List.mem_append.mp hc with hc2 | hc2
          · exact hzeros c hc2
          · exact hdigAll c hc2)
        (by simp)
      rw [List.append_nil] at hfrac
      have hint := span_digits ['0']
        ('.' :: (List.replicate (-(e + (D.length : ℤ))).toNat '0' ++ digitChars D))
        (by
          intro c hc
          simp at hc
          subst hc
          decide)
        (by
          intro c hc
          simp at hc
          subst hc
          decide)
      rw [List.singleton_append] at hint
      rw [hstr]
      simp only [decParse, parseSign_prefix neg '0' _ (by decide)]
      simp only [hint.1, hint.2, hfrac.1, hfrac.2]
      rw [if_pos trivial, if_neg (by simp)]
      simp only [parseExpPart]
      rw [List.singleton_append]
      have hcoeff : ('0' :: (List.replicate (-(e + (D.length : ℤ))).toNat '0'
          ++ digitChars D))
          = List.replicate ((-(e + (D.length : ℤ))).toNat + 1) '0' ++ digitChars D := by
        rw [List.replicate_succ]
        simp [List.cons_append]
      rw [hcoeff, mkDec_eq neg _ D _ hlt hne hlead]
      congr 1
      simp only [List.length_append, List.length_replicate, digitChars, List.length_map,
        PyDecimal.mk.injEq, true_and]
      omega
    · by_cases hdpn : (D.length : ℤ) ≤ e + (D.length : ℤ)
      · -- N2: plain digits, e = 0
        have he0 : e = 0 := le_antisymm hsci.1 (by omega)
        subst he0
        obtain ⟨d0, D', rfl⟩ : ∃ x xs, D = x :: xs := by
          cases D with
          | nil => exact absurd rfl hne
          | cons a l => exact ⟨a, l, rfl⟩
        have hd0 : (digitChar d0).isDigit = true :=
          isDigit_digitChar d0 (hlt d0 (List.mem_cons_self _ _))
        have hstr : decStr ⟨neg, d0 :: D', 0⟩
            = (if neg then ['-'] else []) ++ (digitChar d0 :: digitChars D') := by
          simp only [decStr]
          rw [if_pos hsci, if_neg hdp0, if_pos hdpn, if_pos rfl]
          simp [digitChars]
        have hspanD := span_digits (digitChar d0 :: digitChars D') []
          (by
            intro c hc
            exact hdigAll c (by simpa [digitChars] using hc))
          (by simp)
        rw [List.append_nil] at hspanD
        rw [hstr]
        simp only [decParse, parseSign_prefix neg (digitChar d0) _ hd0]
        simp only [hspanD.1, hspanD.2]
        rw [if_neg (by simp)]
        simp only [parseExpPart]
        rw [show (digitChar d0 :: digitChars D') = digitChars (d0 :: D') from rfl]
        simp only [Nat.cast_zero, neg_zero]
        rw [mkDec_digitChars neg (d0 :: D') 0 hlt hne hlead]
      · -- N3: digits with an embedded point
        obtain ⟨d0, D', rfl⟩ : ∃ x xs, D = x :: xs := by
          cases D with
          | nil => exact absurd rfl hne
          | cons a l => exact ⟨a, l, rfl⟩
        have hd0 : (digitChar d0).isDigit = true :=
          isDigit_digitChar d0 (hlt d0 (List.mem_cons_self _ _))
        obtain ⟨kk, hkz⟩ : ∃ kk : ℕ, (kk : ℤ) = e + (((d0 :: D').length) : ℤ) :=
          ⟨(e + ((d0 :: D').length : ℤ)).toNat, by omega⟩
        have hkk : (e + ((d0 :: D').length : ℤ)).toNat = kk := by omega
        have hk1 : 1 ≤ kk := by omega
        have hkn : kk < (d0 :: D').length := by omega
        have htake : (d0 :: D').take kk = d0 :: D'.take (kk - 1) := by
          match kk, hk1 with
          | m + 1, _ =>
            simp [List.take_succ_cons]
        have hA : digitChars ((d0 :: D').take kk)
            = digitChar d0 :: digitChars (D'.take (kk - 1)) := by
          rw [htake]
          rfl
        have hAdig : ∀ c ∈ digitChars ((d0 :: D').take kk), c.isDigit = true := by
          intro c hc
          obtain ⟨x, hx, rfl⟩ := List.mem_map.mp hc
          exact isDigit_digitChar x (hlt x (List.take_subset kk _ hx))
        have hBdig : ∀ c ∈ digitChars ((d0 :: D').drop kk), c.isDigit = true := by
          intro c hc
          obtain ⟨x, hx, rfl⟩ := List.mem_map.mp hc
          exact isDigit_digitChar x (hlt x (List.drop_subset kk _ hx))
        have hspan1 := span_digits (digitChars ((d0 :: D').take kk))
          ('.' :: digitChars ((d0 :: D').drop kk)) hAdig
          (by
            intro c hc
            simp at hc
            subst hc
            decide)
        have hspan2 := span_digits (digitChars ((d0 :: D').drop kk)) [] hBdig (by simp)
        rw [List.append_nil] at hspan2
        rw [hA, List.cons_append] at hspan1
        have hstr : decStr ⟨neg, d0 :: D', e⟩
            = (if neg then ['-'] else [])
              ++ (digitChar d0 :: (digitChars (D'.take (kk - 1))
                  ++ '.' :: digitChars ((d0 :: D').drop kk))) := by
          simp only [decStr]
          rw [if_pos hsci, if_neg hdp0, if_neg hdpn, if_pos rfl, List.append_nil]
          rw [hkk, hA, List.cons_append]
        rw [hstr]
        simp only [decParse, parseSign_prefix neg (digitChar d0) _ hd0]
        simp only [hspan1.1, hspan1.2, hspan2.1, hspan2.2]
        rw [if_pos trivial, if_neg (by simp)]
        simp only [parseExpPart]
        have hcoeff : (digitChar d0 :: digitChars (D'.take (kk - 1)))
            ++ digitChars ((d0 :: D').drop kk) = digitChars (d0 :: D') := by
          rw [← hA]
          unfold digitChars
          rw [← List.map_append, List.take_append_drop]
        rw [hcoeff, mkDec_digitChars neg _ _ hlt hne hlead]
        simp only [Option.some.injEq, PyDecimal.mk.injEq, true_and, digitChars,
          List.length_map, List.length_drop]
        omega
  · by_cases hn1 : (D.length : ℤ) ≤ 1
    · -- S1: single digit with exponent
      obtain ⟨d0, D', rfl⟩ : ∃ x xs, D = x :: xs := by
        cases D with
        | nil => exact absurd rfl hne
        | cons a l => exact ⟨a, l, rfl⟩
      have hD' : D' = [] := by
        cases D' with
        | nil => rfl
        | cons a l =>
          simp only [List.length_cons] at hn1
          push_cast at hn1
          omega
      subst hD'
      have hd0 : (digitChar d0).isDigit = true :=
        isDigit_digitChar d0 (hlt d0 (List.mem_cons_self _ _))
      have hne0 : e ≠ 0 := by
        intro h
        refine hsci ⟨by omega, ?_⟩
        rw [h]
        simp
      have hstr : decStr ⟨neg, [d0], e⟩
          = (if neg then ['-'] else [])
            ++ (digitChar d0 :: ('E' :: intPlusChars e)) := by
        simp only [decStr]
        rw [if_neg hsci]
        rw [if_neg (by norm_num : ¬ (1:ℤ) ≤ 0)]
        rw [if_pos (by simp : ((([d0] : List ℕ).length : ℕ) : ℤ) ≤ 1)]
        have hcond : ¬ (e + ((([d0] : List ℕ).length : ℕ) : ℤ) = 1) := by
          simp only [List.length_cons, List.length_nil]
          omega
        rw [if_neg hcond]
        simp [digitChars]
      rw [hstr]
      simp only [decParse, parseSign_prefix neg (digitChar d0) _ hd0]
      have hspan := span_digits [digitChar d0] ('E' :: intPlusChars e)
        (by
          intro c hc
          simp at hc
          subst hc
          exact hd0)
        (by
          intro c hc
          simp at hc
          subst hc
          decide)
      rw [List.singleton_append] at hspan
      simp only [hspan.1, hspan.2]
      rw [if_neg (by decide), if_neg (by simp)]
      simp only [parseExpPart]
      rw [if_pos (Or.inl trivial)]
      rw [parseExpDigits_intPlusChars neg _ 0 e hne0]
      rw [show [digitChar d0] = digitChars [d0] from rfl]
      rw [mkDec_digitChars neg [d0] _ hlt hne hlead]
      simp
    · -- S2: d.ddd with exponent
      obtain ⟨d0, D', rfl⟩ : ∃ x xs, D = x :: xs := by
        cases D with
        | nil => exact absurd rfl hne
        | cons a l => exact ⟨a, l, rfl⟩
      have hd0 : (digitChar d0).isDigit = true :=
        isDigit_digitChar d0 (hlt d0 (List.mem_cons_self _ _))
      have hll : (d0 :: D').length = D'.length + 1 := rfl
      have hk0 : e + (((d0 :: D').length : ℕ) : ℤ) - 1 ≠ 0 := by
        intro h
        exact hsci ⟨by omega, by omega⟩
      have hstr : decStr ⟨neg, d0 :: D', e⟩
          = (if neg then ['-'] else [])
            ++ (digitChar d0 :: ('.' :: (digitChars D'
                ++ 'E' :: intPlusChars (e + (((d0 :: D').length : ℕ) : ℤ) - 1)))) := by
        simp only [decStr]
        rw [if_neg hsci]
        rw [if_neg (by norm_num : ¬ (1:ℤ) ≤ 0)]
        rw [if_neg hn1]
        rw [if_neg (by omega : ¬ (e + (((d0 :: D').length : ℕ) : ℤ) = 1))]
        simp [digitChars]
      rw [hstr]
      simp only [decParse, parseSign_prefix neg (digitChar d0) _ hd0]
      have hspan1 := span_digits [digitChar d0]
        ('.' :: (digitChars D'
          ++ 'E' :: intPlusChars (e + (((d0 :: D').length : ℕ) : ℤ) - 1)))
        (by
          intro c hc
          simp at hc
          subst hc
          exact hd0)
        (by
          intro c hc
          simp at hc
          subst hc
          decide)
      rw [List.singleton_append] at hspan1
      have hspan2 := span_digits (digitChars D')
        ('E' :: intPlusChars (e + (((d0 :: D').length : ℕ) : ℤ) - 1))
        (by
          intro c hc
          obtain ⟨x, hx, rfl⟩ := List.mem_map.mp hc
          exact isDigit_digitChar x (hlt x (List.mem_cons_of_mem d0 hx)))
        (by
          intro c hc
          simp at hc
          subst hc
          decide)
      simp only [hspan1.1, hspan1.2, hspan2.1, hspan2.2]
      rw [if_pos trivial, if_neg (by simp)]
      simp only [parseExpPart]
      rw [if_pos (Or.inl trivial)]
      rw [parseExpDigits_intPlusChars neg _ _ _ hk0]
      rw [show ([digitChar d0] ++ digitChars D') = digitChars (d0 :: D') from rfl]
      rw [mkDec_digitChars neg (d0 :: D') _ hlt hne hlead]
      simp only [Option.some.injEq, PyDecimal.mk.injEq, true_and, digitChars,
        List.length_map]
      omega

/-! ## Cache serialization: datetime isoformat strings -/

/-- Python naive datetime. -/
structure PyDateTime where
  year : ℕ
  month : ℕ
  day : ℕ
  hour : ℕ
  minute : ℕ
  second : ℕ
  microsecond : ℕ
deriving DecidableEq, Repr

/-- Field ranges enforced by the datetime constructor. -/
def PyDateTime.Valid (t : PyDateTime) : Prop :=
  1 ≤ t.year ∧ t.year ≤ 9999 ∧ 1 ≤ t.month ∧ t.month ≤ 12 ∧ 1 ≤ t.day ∧ t.day ≤ 31
    ∧ t.hour ≤ 23 ∧ t.minute ≤ 59 ∧ t.second ≤ 59 ∧ t.microsecond ≤ 999999

instance (t : PyDateTime) : Decidable t.Valid := by
  unfold PyDateTime.Valid
  infer_instance

/-- Two zero-padded decimal digits. -/
def pad2 (n : ℕ) : List Char := [digitChar (n / 10 % 10), digitChar (n % 10)]

/-- Four zero-padded decimal digits. -/
def pad4 (n : ℕ) : List Char :=
  [digitChar (n / 1000 % 10), digitChar (n / 100 % 10),
    digitChar (n / 10 % 10), digitChar (n % 10)]

/-- Six zero-padded decimal digits. -/
def pad6 (n : ℕ) : List Char :=
  [digitChar (n / 100000 % 10), digitChar (n / 10000 % 10), digitChar (n / 1000 % 10),
    digitChar (n / 100 % 10), digitChar (n / 10 % 10), digitChar (n % 10)]

/-- Model of datetime.isoformat: YYYY-MM-DDTHH:MM:SS with the microsecond
part appended only when nonzero. -/
def dtIso (t : PyDateTime) : List Char :=
  pad4 t.year ++ '-' :: pad2 t.month ++ '-' :: pad2 t.day ++ 'T' :: pad2 t.hour
    ++ ':' :: pad2 t.minute ++ ':' :: pad2 t.second
    ++ (if t.microsecond = 0 then [] else '.' :: pad6 t.microsecond)

/-- Model of datetime.fromisoformat restricted to the two formats that
isoformat emits: fixed-position fields, optional six-digit fraction. -/
def dtParse (l : List Char) : Option PyDateTime :=
  match l with
  | y3 :: y2 :: y1 :: y0 :: s1 :: m1 :: m0 :: s2 :: d1 :: d0 :: s3 :: h1 :: h0
      :: s4 :: mi1 :: mi0 :: s5 :: se1 :: se0 :: rest =>
    if s1 = '-' ∧ s2 = '-' ∧ s3 = 'T' ∧ s4 = ':' ∧ s5 = ':'
        ∧ ([y3, y2, y1, y0, m1, m0, d1, d0, h1, h0, mi1, mi0, se1, se0].all Char.isDigit) then
      match rest with
      | [] =>
        some ⟨digitsVal [y3, y2, y1, y0], digitsVal [m1, m0], digitsVal [d1, d0],
          digitsVal [h1, h0], digitsVal [mi1, mi0], digitsVal [se1, se0], 0⟩
      | c :: u5 :: u4 :: u3 :: u2 :: u1 :: u0 :: [] =>
        if c = '.' ∧ ([u5, u4, u3, u2, u1, u0].all Char.isDigit) then
          some ⟨digitsVal [y3, y2, y1, y0], digitsVal [m1, m0], digitsVal [d1, d0],
            digitsVal [h1, h0], digitsVal [mi1, mi0], digitsVal [se1, se0],
            digitsVal [u5, u4, u3, u2, u1, u0]⟩
        else none
      | _ => none
    else none
  | _ => none

theorem isDigit_digitChar_mod (n : ℕ) : (digitChar (n % 10)).isDigit = true :=
  isDigit_digitChar _ (Nat.mod_lt _ (by norm_num))

theorem pad2_val (n : ℕ) (h : n < 100) :
    digitsVal [digitChar (n / 10 % 10), digitChar (n % 10)] = n := by
  unfold digitsVal
  simp only [List.foldl_cons, List.foldl_nil]
  rw [digitVal_digitChar _ (by omega), digitVal_digitChar _ (by omega)]
  omega

theorem pad4_val (n : ℕ) (h : n < 10000) :
    digitsVal [digitChar (n / 1000 % 10), digitChar (n / 100 % 10),
      digitChar (n / 10 % 10), digitChar (n % 10)] = n := by
  unfold digitsVal
  simp only [List.foldl_cons, List.foldl_nil]
  rw [digitVal_digitChar _ (by omega), digitVal_digitChar _ (by omega),
    digitVal_digitChar _ (by omega), digitVal_digitChar _ (by omega)]
  omega

theorem pad6_val (n : ℕ) (h : n < 1000000) :
    digitsVal [digitChar (n / 100000 % 10), digitChar (n / 10000 % 10),
      digitChar (n / 1000 % 10), digitChar (n / 100 % 10),
      digitChar (n / 10 % 10), digitChar (n % 10)] = n := by
  unfold digitsVal
  simp only [List.foldl_cons, List.foldl_nil]
  rw [digitVal_digitChar _ (by omega), digitVal_digitChar _ (by omega),
    digitVal_digitChar _ (by omega), digitVal_digitChar _ (by omega),
    digitVal_digitChar _ (by omega), digitVal_digitChar _ (by omega)]
  omega

theorem dtParse_dtIso (t : PyDateTime) (h : t.Valid) : dtParse (dtIso t) = some t := by
  obtain ⟨y, mo, d, hh, mi, s, us⟩ := t
  unfold PyDateTime.Valid at h
  simp only at h
  obtain ⟨hy1, hy2, hm1, hm2, hd1, hd2, hh2, hmi2, hs2, hus2⟩ := h
  by_cases hus : us = 0
  · subst hus
    simp only [dtIso, pad4, pad2, pad6, eq_self_iff_true, if_true]
    simp only [List.cons_append, List.nil_append, List.append_nil]
    simp only [dtParse]
    rw [if_pos (by simp [isDigit_digitChar_mod])]
    simp only [Option.some.injEq, PyDateTime.mk.injEq]
    refine ⟨pad4_val y (by omega), pad2_val mo (by omega), pad2_val d (by omega),
      pad2_val hh (by omega), pad2_val mi (by omega), pad2_val s (by omega), trivial⟩
  · simp only [dtIso, pad4, pad2, pad6, if_neg hus]
    simp only [List.cons_append, List.nil_append, List.append_nil]
    simp only [dtParse]
    rw [if_pos (by simp [isDigit_digitChar_mod])]
    rw [if_pos (by simp [isDigit_digitChar_mod])]
    simp only [Option.some.injEq, PyDateTime.mk.injEq]
    refine ⟨pad4_val y (by omega), pad2_val mo (by omega), pad2_val d (by omega),
      pad2_val hh (by omega), pad2_val mi (by omega), pad2_val s (by omega),
      pad6_val us (by omega)⟩

/-! ## Cache payload universe and the tagged encode/decode pair -/

mutual
/-- A Python value as seen by the cache serialization layer: strings,
Decimal and datetime objects, None, dataclass instances (class name plus
ordered fields), dicts and lists. -/
inductive PyObj where
  | pyStr : String → PyObj
  | pyDec : PyDecimal → PyObj
  | pyDt : PyDateTime → PyObj
  | pyNone : PyObj
  | pyRecord : String → PyFields → PyObj
  | pyDict : PyFields → PyObj
  | pyList : PyObjList → PyObj

/-- A list of Python values. -/
inductive PyObjList where
  | nil : PyObjList
  | cons : PyObj → PyObjList → PyObjList

/-- Ordered key-value pairs of a Python dict or dataclass. -/
inductive PyFields where
  | nil : PyFields
  | cons : String → PyObj → PyFields → PyFields
end

/-- Membership test of a key, the Python in operator on a dict. -/
def hasField : PyFields → String → Bool
  | PyFields.nil, _ => false
  | PyFields.cons k _ rest, key => if k = key then true else hasField rest key

/-- Subscript read of a key, none when absent (a KeyError site). -/
def getField : PyFields → String → Option PyObj
  | PyFields.nil, _ => none
  | PyFields.cons k v rest, key => if k = key then some v else getField rest key

/-- Subscript assignment to an existing key. -/
def setField : PyFields → String → PyObj → PyFields
  | PyFields.nil, _, _ => PyFields.nil
  | PyFields.cons k v rest, key, newV =>
    if k = key then PyFields.cons k newV rest
    else PyFields.cons k v (setField rest key newV)

/-- The class map of _deserialize_from_cache. -/
def class_map : List String := ["GoldPrice", "UsdVndRate", "BitcoinPrice", "Vn30Index"]

mutual
/-- Model of dataclasses.asdict value conversion: dataclass instances
become plain dicts recursively; dicts and lists are rebuilt; every other
value is deep-copied as is. -/
def asdictObj : PyObj → PyObj
  | PyObj.pyRecord _ fs => PyObj.pyDict (asdictFields fs)
  | PyObj.pyDict fs => PyObj.pyDict (asdictFields fs)
  | PyObj.pyList xs => PyObj.pyList (asdictList xs)
  | x => x

/-- Elementwise asdict over a list. -/
def asdictList : PyObjList → PyObjList
  | PyObjList.nil => PyObjList.nil
  | PyObjList.cons x xs => PyObjList.cons (asdictObj x) (asdictList xs)

/-- Valuewise asdict over dict fields. -/
def asdictFields : PyFields → PyFields
  | PyFields.nil => PyFields.nil
  | PyFields.cons k v rest => PyFields.cons k (asdictObj v) (asdictFields rest)
end

/-- Model of _serialize_for_cache: a dataclass instance becomes a dict
tagged with its class name whose data is asdict of the instance; a Decimal
becomes a dict tagged with its exact string form; a datetime becomes a
dict tagged with its isoformat string; everything else passes through. -/
def _serialize_for_cache : PyObj → PyObj
  | PyObj.pyRecord name fs =>
    PyObj.pyDict (PyFields.cons "__dataclass__" (PyObj.pyStr name)
      (PyFields.cons "data" (PyObj.pyDict (asdictFields fs)) PyFields.nil))
  | PyObj.pyDec d => PyObj.pyDict (PyFields.cons "__decimal__"
      (PyObj.pyStr (String.mk (decStr d))) PyFields.nil)
  | PyObj.pyDt t => PyObj.pyDict (PyFields.cons "__datetime__"
      (PyObj.pyStr (String.mk (dtIso t))) PyFields.nil)
  | x => x

theorem getField_sizeOf_lt : ∀ (fs : PyFields) (key : String) (v : PyObj),
    getField fs key = some v → sizeOf v < sizeOf fs
  | PyFields.nil, _, _, h => by simp [getField] at h
  | PyFields.cons k w rest, key, v, h => by
    simp only [getField] at h
    split_ifs at h with hk
    · have hv := Option.some_inj.mp h
      subst hv
      simp
      omega
    · have := getField_sizeOf_lt rest key v h
      simp
      omega

mutual
/-- Model of _deserialize_from_cache.  A dict tagged __dataclass__ has the
values of its data dict deserialized in place, then a known class name
rebuilds the dataclass instance while an unknown one returns the mutated
dict; a missing or non-dict data raises (KeyError or AttributeError,
modelled as an error).  A dict tagged __decimal__ or __datetime__ parses
its string payload, a malformed payload raising.  Untagged dicts and
lists are deserialized elementwise, and every other value is returned
unchanged. -/
def _deserialize_from_cache : PyObj → Except Unit PyObj
  | PyObj.pyDict fs =>
    if hasField fs "__dataclass__" then
      match hdata : getField fs "data" with
      | some (PyObj.pyDict dataFs) =>
        match deserializeFields dataFs with
        | Except.error er => Except.error er
        | Except.ok dataFs2 =>
          match getField fs "__dataclass__" with
          | some (PyObj.pyStr name) =>
            if name ∈ class_map then Except.ok (PyObj.pyRecord name dataFs2)
            else Except.ok (PyObj.pyDict (setField fs "data" (PyObj.pyDict dataFs2)))
          | _ => Except.ok (PyObj.pyDict (setField fs "data" (PyObj.pyDict dataFs2)))
      | some _ => Except.error ()
      | none => Except.error ()
    else if hasField fs "__decimal__" then
      match getField fs "__decimal__" with
      | some (PyObj.pyStr s) =>
        match decParse s.data with
        | some dec => Except.ok (PyObj.pyDec dec)
        | none => Except.error ()
      | _ => Except.error ()
    else if hasField fs "__datetime__" then
      match getField fs "__datetime__" with
      | some (PyObj.pyStr s) =>
        match dtParse s.data with
        | some t => Except.ok (PyObj.pyDt t)
        | none => Except.error ()
      | _ => Except.error ()
    else
      match deserializeFields fs with
      | Except.error er => Except.error er
      | Except.ok fs2 => Except.ok (PyObj.pyDict fs2)
  | PyObj.pyList xs =>
    match deserializeList xs with
    | Except.error er => Except.error er
    | Except.ok xs2 => Except.ok (PyObj.pyList xs2)
  | x => Except.ok x
termination_by x => sizeOf x
decreasing_by
  all_goals simp_wf
  all_goals first
    | omega
    | (have hlt := getField_sizeOf_lt fs "data" (PyObj.pyDict dataFs) hdata
       simp at hlt
       omega)

/-- Elementwise deserialization of a list. -/
def deserializeList : PyObjList → Except Unit PyObjList
  | PyObjList.nil => Except.ok PyObjList.nil
  | PyObjList.cons x xs =>
    match _deserialize_from_cache x, deserializeList xs with
    | Except.ok y, Except.ok ys => Except.ok (PyObjList.cons y ys)
    | Except.error er, _ => Except.error er
    | _, Except.error er => Except.error er
termination_by xs => sizeOf xs
decreasing_by
  all_goals simp_wf
  all_goals omega

/-- Valuewise deserialization of dict fields. -/
def deserializeFields : PyFields → Except Unit PyFields
  | PyFields.nil => Except.ok PyFields.nil
  | PyFields.cons k v rest =>
    match _deserialize_from_cache v, deserializeFields rest with
    | Except.ok v2, Except.ok rest2 => Except.ok (PyFields.cons k v2 rest2)
    | Except.error er, _ => Except.error er
    | _, Except.error er => Except.error er
termination_by fs => sizeOf fs
decreasing_by
  all_goals simp_wf
  all_goals omega
end

/-- Values that appear as dataclass field payloads: strings, Decimal and
datetime objects, None. -/
def LeafObj : PyObj → Prop
  | PyObj.pyStr _ => True
  | PyObj.pyDec _ => True
  | PyObj.pyDt _ => True
  | PyObj.pyNone => True
  | _ => False

/-- All field values are leaves (the four cached dataclasses are flat). -/
def FieldsLeaves : PyFields → Prop
  | PyFields.nil => True
  | PyFields.cons _ v rest => LeafObj v ∧ FieldsLeaves rest

/-- The values the cache layer persists: exact Decimals, datetimes, and
instances of the four mapped dataclasses with flat fields. -/
def ValidCacheVal : PyObj → Prop
  | PyObj.pyDec d => d.Valid
  | PyObj.pyDt t => t.Valid
  | PyObj.pyRecord name fs => name ∈ class_map ∧ FieldsLeaves fs
  | _ => False

theorem asdictObj_leaf (v : PyObj) (h : LeafObj v) : asdictObj v = v := by
  cases v <;> first | rfl | exact h.elim

theorem asdictFields_leaves : ∀ (fs : PyFields), FieldsLeaves fs → asdictFields fs = fs
  | PyFields.nil, _ => rfl
  | PyFields.cons k v rest, h => by
    have h2 := asdictFields_leaves rest h.2
    simp only [asdictFields, asdictObj_leaf v h.1, h2]

theorem deserialize_leaf (v : PyObj) (h : LeafObj v) :
    _deserialize_from_cache v = Except.ok v := by
  cases v with
  | pyStr s => simp [_deserialize_from_cache]
  | pyDec d => simp [_deserialize_from_cache]
  | pyDt t => simp [_deserialize_from_cache]
  | pyNone => simp [_deserialize_from_cache]
  | pyRecord n fs => exact h.elim
  | pyDict fs => exact h.elim
  | pyList xs => exact h.elim

theorem deserializeFields_leaves :
    ∀ (fs : PyFields), FieldsLeaves fs → deserializeFields fs = Except.ok fs
  | PyFields.nil, _ => by simp [deserializeFields]
  | PyFields.cons k v rest, h => by
    have h2 := deserializeFields_leaves rest h.2
    simp only [deserializeFields, deserialize_leaf v h.1, h2]

/-- C8: for every Quantity (exact Decimal) value, every datetime, and every
tagged dataclass record containing them, cache deserialization is a left
inverse of cache serialization, the exact decimal representation passing
through the encode/decode pair unchanged. -/
theorem cache_serialization_roundtrip :
    ∀ x : PyObj, ValidCacheVal x →
      _deserialize_from_cache (_serialize_for_cache x) = Except.ok x := by
  intro x hx
  have hs1 : ¬ ("__decimal__" : String) = "__dataclass__" := by decide
  have hs2 : ¬ ("__datetime__" : String) = "__dataclass__" := by decide
  have hs3 : ¬ ("__datetime__" : String) = "__decimal__" := by decide
  have hs4 : ¬ ("__dataclass__" : String) = "data" := by decide
  cases x with
  | pyDec d =>
    have hd : d.Valid := hx
    simp only [_serialize_for_cache]
    simp [_deserialize_from_cache, hasField, getField, hs1, decParse_decStr d hd]
  | pyDt t =>
    have ht : t.Valid := hx
    simp only [_serialize_for_cache]
    simp [_deserialize_from_cache, hasField, getField, hs2, hs3, dtParse_dtIso t ht]
  | pyRecord name fs =>
    obtain ⟨hname, hleaves⟩ := hx
    simp only [_serialize_for_cache, asdictFields_leaves fs hleaves]
    simp [_deserialize_from_cache, hasField, getField, hs4,
      deserializeFields_leaves fs hleaves, hname]
  | pyStr s => exact hx.elim
  | pyNone => exact hx.elim
  | pyDict fs => exact hx.elim
  | pyList xs => exact hx.elim

/-- Witness for C8: the round-trip applied to the concrete Decimal 0.1,
stored as sign 0, digit tuple (1,), exponent -1. -/
theorem cache_serialization_roundtrip_witness :
    _deserialize_from_cache (_serialize_for_cache (PyObj.pyDec ⟨false, [1], -1⟩))
      = Except.ok (PyObj.pyDec ⟨false, [1], -1⟩) :=
  cache_serialization_roundtrip (PyObj.pyDec ⟨false, [1], -1⟩)
    (by
      show PyDecimal.Valid ⟨false, [1], -1⟩
      decide)

end GoldDashboard
